import Mathlib

/-!
# SingleLinkedList (single-linked-list/main.cpp): a heap-level embedding

The C++ class template `SingleLinkedList<Type>` is embedded with explicit state passing.

* The free store is a `Heap`: a list of cells, the address of a node being its index.
  `new Node(v, n)` appends a live cell, `delete p` turns the cell into `none`.
* A `Node*` is a `NodePtr`: `nullptr`, the address `&head_` of the sentinel member of the
  list object an operation works on, or the address of a node of the free store.
* A list object is the pair of its members `head_` and `size_`; `size_` is a 64-bit
  `size_t`, so `++size_` and `--size_` are taken modulo `2 ^ 64` (`--size_` adds
  `2 ^ 64 - 1`).
* Undefined behaviour (`->` through `nullptr`, access to a deleted node), a failed `assert`
  and an exhausted loop budget are the `Fault`s of `Except Fault`.
* Loops whose termination depends on the shape of the chain (`Clear`, a traversal,
  `std::equal`) take a `fuel` bound.
* `new` always succeeds (the free store is unbounded). The copy constructor of `Type`
  that the constructors run is their parameter `copy`, `none` when it throws.

Well-formed lists are described by what the code observes: `Elements m L xs` says that
the loop from `begin()` to `end()` terminates and yields `xs`; a position is given by the
number of `++` steps that reach it from `before_begin()` or `begin()`.
-/

deriving instance DecidableEq for Except

namespace SingleLinkedList

/-- Ways in which an execution does not produce a result. -/
inductive Fault where
  | null_deref
  | dangling
  | assert_failed
  | out_of_fuel
  deriving DecidableEq

/-- A value of type `Node*`. -/
inductive NodePtr where
  | null : NodePtr
  | head : NodePtr
  | heap (a : Nat) : NodePtr
  deriving DecidableEq

/-- The source's `struct Node`: `Type value; Node* next_node`. -/
structure Node (α : Type) where
  value : α
  next_node : NodePtr
  deriving DecidableEq

/-- The free store: cell `a` is `some n` while the node at address `a` is live. -/
abbrev Heap (α : Type) := List (Option (Node α))

/-- The modulus of `size_t` arithmetic (a 64-bit `size_t`). -/
def SIZE_MOD : Nat := 2 ^ 64

end SingleLinkedList

/-- The data members of `SingleLinkedList<Type>`: the sentinel `head_` and `size_`. -/
structure SingleLinkedList (α : Type) where
  head_ : SingleLinkedList.Node α
  size_ : Nat
  deriving DecidableEq

namespace SingleLinkedList

variable {α : Type}

/-- The expression `new Node(val, next)`: the node gets the first unused address. -/
def newNode (m : Heap α) (val : α) (next : NodePtr) : NodePtr × Heap α :=
  (NodePtr.heap m.length, m ++ [some ⟨val, next⟩])

/-- The statement `delete p`. -/
def deleteNode (m : Heap α) : NodePtr → Except Fault (Heap α)
  | NodePtr.null => Except.ok m
  | NodePtr.head => Except.error Fault.dangling
  | NodePtr.heap a =>
    match m[a]? with
    | some (some _) => Except.ok (m.set a none)
    | _ => Except.error Fault.dangling

/-- The read `p->next_node`, `&head_` being the sentinel of `L`. -/
def getNext (m : Heap α) (L : SingleLinkedList α) : NodePtr → Except Fault NodePtr
  | NodePtr.null => Except.error Fault.null_deref
  | NodePtr.head => Except.ok L.head_.next_node
  | NodePtr.heap a =>
    match m[a]? with
    | some (some n) => Except.ok n.next_node
    | _ => Except.error Fault.dangling

/-- The read `p->value`, `&head_` being the sentinel of `L`. -/
def getValue (m : Heap α) (L : SingleLinkedList α) : NodePtr → Except Fault α
  | NodePtr.null => Except.error Fault.null_deref
  | NodePtr.head => Except.ok L.head_.value
  | NodePtr.heap a =>
    match m[a]? with
    | some (some n) => Except.ok n.value
    | _ => Except.error Fault.dangling

/-- The write `p->next_node = q`, `&head_` being the sentinel of `L`. -/
def setNext (m : Heap α) (L : SingleLinkedList α) (p q : NodePtr) :
    Except Fault (Heap α × SingleLinkedList α) :=
  match p with
  | NodePtr.null => Except.error Fault.null_deref
  | NodePtr.head => Except.ok (m, ⟨⟨L.head_.value, q⟩, L.size_⟩)
  | NodePtr.heap a =>
    match m[a]? with
    | some (some n) => Except.ok (m.set a (some ⟨n.value, q⟩), L)
    | _ => Except.error Fault.dangling

/-- The source's `SingleLinkedList() {}`: `head_` default-constructed, `size_ = 0`. -/
def empty [Inhabited α] : SingleLinkedList α := ⟨⟨default, NodePtr.null⟩, 0⟩

/-- The source's `BasicIterator`: its only member is `Node* node_`. -/
structure BasicIterator where
  node_ : NodePtr
  deriving DecidableEq

/-- The source's `BasicIterator::operator==`. -/
def BasicIterator.eq (a b : BasicIterator) : Bool := decide (a.node_ = b.node_)

/-- The source's `BasicIterator::operator!=`. -/
def BasicIterator.ne (a b : BasicIterator) : Bool := decide (a.node_ ≠ b.node_)

/-- The source's `BasicIterator::operator++()`: `node_ = node_->next_node`. -/
def BasicIterator.preIncrement (m : Heap α) (L : SingleLinkedList α) (it : BasicIterator) :
    Except Fault BasicIterator :=
  match getNext m L it.node_ with
  | Except.ok n => Except.ok ⟨n⟩
  | Except.error f => Except.error f

/-- The source's `BasicIterator::operator++(int)`: the pair is (returned copy, iterator
after the advance). -/
def BasicIterator.postIncrement (m : Heap α) (L : SingleLinkedList α) (it : BasicIterator) :
    Except Fault (BasicIterator × BasicIterator) :=
  match getNext m L it.node_ with
  | Except.error f => Except.error f
  | Except.ok n =>
    if n = NodePtr.null then Except.error Fault.assert_failed
    else Except.ok (it, ⟨n⟩)

/-- The source's `BasicIterator::operator*`. -/
def BasicIterator.deref (m : Heap α) (L : SingleLinkedList α) (it : BasicIterator) :
    Except Fault α :=
  if it.node_ = NodePtr.null then Except.error Fault.assert_failed
  else getValue m L it.node_

/-- The source's `before_begin()` and `cbefore_begin()`. -/
def before_begin (_L : SingleLinkedList α) : BasicIterator := ⟨NodePtr.head⟩

/-- The source's `begin()` and `cbegin()`. -/
def begin (L : SingleLinkedList α) : BasicIterator := ⟨L.head_.next_node⟩

/-- The source's `end()` and `cend()`. -/
def end_ (_L : SingleLinkedList α) : BasicIterator := ⟨NodePtr.null⟩

/-- The source's `GetSize`. -/
def GetSize (L : SingleLinkedList α) : Nat := L.size_

/-- The source's `IsEmpty`. -/
def IsEmpty (L : SingleLinkedList α) : Bool := decide (L.size_ = 0)

/-- The source's `PushFront`. -/
def PushFront (m : Heap α) (L : SingleLinkedList α) (value : α) :
    Heap α × SingleLinkedList α :=
  let r := newNode m value L.head_.next_node
  (r.2, ⟨⟨L.head_.value, r.1⟩, (L.size_ + 1) % SIZE_MOD⟩)

/-- The source's `Clear`: the loop runs at most `fuel` tests of its condition. -/
def Clear : Nat → Heap α → SingleLinkedList α → Except Fault (Heap α × SingleLinkedList α)
  | 0, _, _ => Except.error Fault.out_of_fuel
  | fuel + 1, m, L =>
    if L.head_.next_node = NodePtr.null then Except.ok (m, ⟨L.head_, 0⟩)
    else
      match getNext m L L.head_.next_node with
      | Except.error f => Except.error f
      | Except.ok nxt =>
        match deleteNode m L.head_.next_node with
        | Except.error f => Except.error f
        | Except.ok m1 => Clear fuel m1 ⟨⟨L.head_.value, nxt⟩, L.size_⟩

/-- The source's member `swap`: the pair is (`*this`, `other`) afterwards. -/
def swap (this other : SingleLinkedList α) : SingleLinkedList α × SingleLinkedList α :=
  (⟨⟨this.head_.value, other.head_.next_node⟩, other.size_⟩,
   ⟨⟨other.head_.value, this.head_.next_node⟩, this.size_⟩)

/-- The source's `PopFront`. -/
def PopFront (m : Heap α) (L : SingleLinkedList α) :
    Except Fault (Heap α × SingleLinkedList α) :=
  if (begin L).eq (end_ L) then Except.ok (m, L)
  else
    match getNext m L L.head_.next_node with
    | Except.error f => Except.error f
    | Except.ok nxt =>
      match deleteNode m L.head_.next_node with
      | Except.error f => Except.error f
      | Except.ok m1 =>
        Except.ok (m1, ⟨⟨L.head_.value, nxt⟩, (SIZE_MOD - 1 + L.size_) % SIZE_MOD⟩)

/-- The source's `InsertAfter`. -/
def InsertAfter (m : Heap α) (L : SingleLinkedList α) (pos : BasicIterator) (value : α) :
    Except Fault (Heap α × SingleLinkedList α × BasicIterator) :=
  if pos.node_ = NodePtr.null then Except.error Fault.assert_failed
  else
    match getNext m L pos.node_ with
    | Except.error f => Except.error f
    | Except.ok nxt =>
      let r := newNode m value nxt
      match setNext r.2 L pos.node_ r.1 with
      | Except.error f => Except.error f
      | Except.ok (m2, L2) =>
        Except.ok (m2, ⟨L2.head_, (L2.size_ + 1) % SIZE_MOD⟩, ⟨r.1⟩)

/-- The source's `EraseAfter`. -/
def EraseAfter (m : Heap α) (L : SingleLinkedList α) (pos : BasicIterator) :
    Except Fault (Heap α × SingleLinkedList α × BasicIterator) :=
  if pos.node_ = NodePtr.null then Except.error Fault.assert_failed
  else if (begin L).eq (end_ L) then Except.ok (m, L, ⟨NodePtr.null⟩)
  else
    match getNext m L pos.node_ with
    | Except.error f => Except.error f
    | Except.ok deleted_elem =>
      match getNext m L deleted_elem with
      | Except.error f => Except.error f
      | Except.ok new_position =>
        match setNext m L pos.node_ new_position with
        | Except.error f => Except.error f
        | Except.ok (m1, L1) =>
          match deleteNode m1 deleted_elem with
          | Except.error f => Except.error f
          | Except.ok m2 =>
            Except.ok (m2, ⟨L1.head_, (SIZE_MOD - 1 + L1.size_) % SIZE_MOD⟩, ⟨new_position⟩)

/-- The client loop `for (auto it = first; it != end(); ++it) out.push_back(*it)`. -/
def traverse (m : Heap α) (L : SingleLinkedList α) :
    Nat → BasicIterator → Except Fault (List α)
  | 0, _ => Except.error Fault.out_of_fuel
  | fuel + 1, it =>
    if it.ne (end_ L) then
      match it.deref m L with
      | Except.error f => Except.error f
      | Except.ok x =>
        match it.preIncrement m L with
        | Except.error f => Except.error f
        | Except.ok it1 =>
          match traverse m L fuel it1 with
          | Except.error f => Except.error f
          | Except.ok rest => Except.ok (x :: rest)
    else Except.ok []

/-- Pre-increment applied `k` times. -/
def advance (m : Heap α) (L : SingleLinkedList α) : Nat → BasicIterator → Except Fault BasicIterator
  | 0, it => Except.ok it
  | k + 1, it =>
    match it.preIncrement m L with
    | Except.error f => Except.error f
    | Except.ok it1 => advance m L k it1

/-- The body of the constructor's loop for the value `x` of `*it`:
`iter_list.node_->next_node = new Node(*it, iter_list.node_->next_node); ++iter_list;
++tmp.size_;`. `copy` is the copy constructor of `Type` run by `Node(val, next)`, `none`
when it throws; the result is `none` when that exception leaves the loop. -/
def linkStep (copy : α → Option α) (m : Heap α) (tmp : SingleLinkedList α)
    (iter_list : BasicIterator) (x : α) :
    Except Fault (Option (Heap α × SingleLinkedList α × BasicIterator)) :=
  match getNext m tmp iter_list.node_ with
  | Except.error f => Except.error f
  | Except.ok nxt =>
    match copy x with
    | none => Except.ok none
    | some v =>
      let r := newNode m v nxt
      match setNext r.2 tmp iter_list.node_ r.1 with
      | Except.error f => Except.error f
      | Except.ok (m2, tmp2) =>
        match iter_list.preIncrement m2 tmp2 with
        | Except.error f => Except.error f
        | Except.ok it2 =>
          Except.ok (some (m2, ⟨tmp2.head_, (tmp2.size_ + 1) % SIZE_MOD⟩, it2))

/-- The loop `for (auto it = begin; it != end; ++it)` of the range constructor, for a
range that yields the values of the given list. The result is the free store, `tmp` and
whether the loop ran to its end (`false`: an element copy threw). -/
def rangeLoop (copy : α → Option α) :
    List α → Heap α → SingleLinkedList α → BasicIterator →
      Except Fault (Heap α × SingleLinkedList α × Bool)
  | [], m, tmp, _ => Except.ok (m, tmp, true)
  | x :: rest, m, tmp, iter_list =>
    match linkStep copy m tmp iter_list x with
    | Except.error f => Except.error f
    | Except.ok none => Except.ok (m, tmp, false)
    | Except.ok (some (m2, tmp2, it2)) => rangeLoop copy rest m2 tmp2 it2

/-- The same loop for the range `other.begin(), other.end()` of a list in the free store
(the instance the copy constructor uses). -/
def copyLoop (copy : α → Option α) (other : SingleLinkedList α) :
    Nat → BasicIterator → Heap α → SingleLinkedList α → BasicIterator →
      Except Fault (Heap α × SingleLinkedList α × Bool)
  | 0, _, _, _, _ => Except.error Fault.out_of_fuel
  | fuel + 1, it, m, tmp, iter_list =>
    if it.ne (end_ other) then
      match it.deref m other with
      | Except.error f => Except.error f
      | Except.ok x =>
        match linkStep copy m tmp iter_list x with
        | Except.error f => Except.error f
        | Except.ok none => Except.ok (m, tmp, false)
        | Except.ok (some (m2, tmp2, it2)) =>
          match it.preIncrement m2 other with
          | Except.error f => Except.error f
          | Except.ok it1 => copyLoop copy other fuel it1 m2 tmp2 it2
    else Except.ok (m, tmp, true)

/-- What follows the loop in the range constructor. Loop done: `swap(tmp)`, then the
destructor of `tmp` (`Clear`). Exception: the handler `Clear(); throw;`, then the
destructor of `tmp`; no list is constructed (`none`). -/
def finishCtor (fuel : Nat) (this : SingleLinkedList α)
    (r : Heap α × SingleLinkedList α × Bool) :
    Except Fault (Heap α × Option (SingleLinkedList α)) :=
  if r.2.2 then
    let s := swap this r.2.1
    match Clear fuel r.1 s.2 with
    | Except.error f => Except.error f
    | Except.ok (m2, _) => Except.ok (m2, some s.1)
  else
    match Clear fuel r.1 this with
    | Except.error f => Except.error f
    | Except.ok (m2, _) =>
      match Clear fuel m2 r.2.1 with
      | Except.error f => Except.error f
      | Except.ok (m3, _) => Except.ok (m3, none)

/-- The source's `SingleLinkedList(Iter begin, Iter end)` for a range yielding `values`. -/
def RangeCtor [Inhabited α] (fuel : Nat) (copy : α → Option α) (m : Heap α)
    (values : List α) : Except Fault (Heap α × Option (SingleLinkedList α)) :=
  let this : SingleLinkedList α := empty
  if this.size_ = 0 ∧ this.head_.next_node = NodePtr.null then
    match rangeLoop copy values m empty ⟨NodePtr.head⟩ with
    | Except.error f => Except.error f
    | Except.ok r => finishCtor fuel this r
  else Except.error Fault.assert_failed

/-- The source's `SingleLinkedList(std::initializer_list<Type> values)`. -/
def InitListCtor [Inhabited α] (fuel : Nat) (copy : α → Option α) (m : Heap α)
    (values : List α) : Except Fault (Heap α × Option (SingleLinkedList α)) :=
  RangeCtor fuel copy m values

/-- The source's `SingleLinkedList(const SingleLinkedList& other)`: the range constructor
on `other.begin(), other.end()`. -/
def CopyCtor [Inhabited α] (fuel : Nat) (copy : α → Option α) (m : Heap α)
    (other : SingleLinkedList α) : Except Fault (Heap α × Option (SingleLinkedList α)) :=
  let this : SingleLinkedList α := empty
  if this.size_ = 0 ∧ this.head_.next_node = NodePtr.null then
    match copyLoop copy other fuel (begin other) m empty ⟨NodePtr.head⟩ with
    | Except.error f => Except.error f
    | Except.ok r => finishCtor fuel this r
  else Except.error Fault.assert_failed

/-- The source's `operator=`. `rhs = none` stands for `this == &rhs`. The result is the
free store, `*this`, and whether the assignment returned (`false`: the copy threw). -/
def operatorAssign [Inhabited α] (fuel : Nat) (copy : α → Option α) (m : Heap α)
    (this : SingleLinkedList α) :
    Option (SingleLinkedList α) → Except Fault (Heap α × SingleLinkedList α × Bool)
  | none => Except.ok (m, this, true)
  | some rhs =>
    match CopyCtor fuel copy m rhs with
    | Except.error f => Except.error f
    | Except.ok (m1, none) => Except.ok (m1, this, false)
    | Except.ok (m1, some tmp_object) =>
      let s := swap this tmp_object
      match Clear fuel m1 s.2 with
      | Except.error f => Except.error f
      | Except.ok (m2, _) => Except.ok (m2, s.1, true)

/-- The four-iterator `std::equal` of the standard library for forward iterators:
`for (; first1 != last1 && first2 != last2; ++first1, ++first2)
if (!(*first1 == *first2)) return false; return first1 == last1 && first2 == last2;`
with `eq` the `operator==` of `Type`. -/
def std_equal (eq : α → α → Bool) (m : Heap α) (lhs rhs : SingleLinkedList α)
    (last1 last2 : BasicIterator) : Nat → BasicIterator → BasicIterator → Except Fault Bool
  | 0, _, _ => Except.error Fault.out_of_fuel
  | fuel + 1, first1, first2 =>
    if first1.ne last1 && first2.ne last2 then
      match first1.deref m lhs with
      | Except.error f => Except.error f
      | Except.ok x =>
        match first2.deref m rhs with
        | Except.error f => Except.error f
        | Except.ok y =>
          if !(eq x y) then Except.ok false
          else
            match first1.preIncrement m lhs with
            | Except.error f => Except.error f
            | Except.ok n1 =>
              match first2.preIncrement m rhs with
              | Except.error f => Except.error f
              | Except.ok n2 => std_equal eq m lhs rhs last1 last2 fuel n1 n2
    else Except.ok (first1.eq last1 && first2.eq last2)

/-- The source's `operator==` on lists. -/
def operatorEq (eq : α → α → Bool) (fuel : Nat) (m : Heap α) (lhs rhs : SingleLinkedList α) :
    Except Fault Bool :=
  std_equal eq m lhs rhs (end_ lhs) (end_ rhs) fuel (begin lhs) (begin rhs)

/-- The source's `operator!=` on lists: `!(lhs == rhs)`. -/
def operatorNe (eq : α → α → Bool) (fuel : Nat) (m : Heap α) (lhs rhs : SingleLinkedList α) :
    Except Fault Bool :=
  match operatorEq eq fuel m lhs rhs with
  | Except.error f => Except.error f
  | Except.ok b => Except.ok (!b)

/-- Starting at `p`, the `next_node` links lead through the live nodes `cs` (address and
value, in order) and end in `nullptr`. -/
def Chain (m : Heap α) : NodePtr → List (Nat × α) → Prop
  | p, [] => p = NodePtr.null
  | p, c :: cs => p = NodePtr.heap c.1 ∧ ∃ q, m[c.1]? = some (some ⟨c.2, q⟩) ∧ Chain m q cs

/-- The traversal `begin()` to `end()` of `L` in the free store `m` yields `xs`. -/
def Elements (m : Heap α) (L : SingleLinkedList α) (xs : List α) : Prop :=
  ∃ fuel, traverse m L fuel (begin L) = Except.ok xs

/-- The invariant of the data model: `size_` is the number of real nodes reachable from
`head_.next_node` (the nodes the traversal visits). -/
def SizeInvariant (m : Heap α) (L : SingleLinkedList α) : Prop :=
  ∃ xs, Elements m L xs ∧ L.size_ = xs.length

/-- The pointer at which the chain `cs` starts. -/
def headPtr : List (Nat × α) → NodePtr
  | [] => NodePtr.null
  | c :: _ => NodePtr.heap c.1

/-- A free store that holds the two nodes of the list `[1, 2]`. -/
def demoHeap : Heap Nat := [some ⟨1, NodePtr.heap 1⟩, some ⟨2, NodePtr.null⟩]

/-- The list object for `[1, 2]` in `demoHeap`. -/
def demoList : SingleLinkedList Nat := ⟨⟨0, NodePtr.heap 0⟩, 2⟩

/-- The empty list of naturals. -/
def demoEmpty : SingleLinkedList Nat := empty

/-- The free store after `PushFront(3)`, `PushFront(2)`, `PushFront(1)` on an empty list
in an empty free store. -/
def scenarioHeap : Heap Nat :=
  [some ⟨3, NodePtr.null⟩, some ⟨2, NodePtr.heap 0⟩, some ⟨1, NodePtr.heap 1⟩]

/-- The list object after these three calls: the list `[1, 2, 3]`. -/
def scenarioList : SingleLinkedList Nat := ⟨⟨0, NodePtr.heap 2⟩, 3⟩

/-- The free store after the further call `EraseAfter(before_begin())`. -/
def scenarioHeap2 : Heap Nat :=
  [some ⟨3, NodePtr.null⟩, some ⟨2, NodePtr.heap 0⟩, none]

/-- The list object after that call: the list `[2, 3]`. -/
def scenarioList2 : SingleLinkedList Nat := ⟨⟨0, NodePtr.heap 1⟩, 2⟩

/-- What list equality is to compute: the two sequences have the same length and their
elements are pairwise equal under `eq`. -/
def pairwiseEq (eq : α → α → Bool) : List α → List α → Bool
  | [], [] => true
  | x :: xs, y :: ys => eq x y && pairwiseEq eq xs ys
  | _, _ => false

/-- The free function `swap(lhs, rhs)` of the source: `lhs.swap(rhs)`; the pair is
(`lhs`, `rhs`) afterwards. -/
def freeSwap (lhs rhs : SingleLinkedList α) : SingleLinkedList α × SingleLinkedList α :=
  swap lhs rhs

/-- The `std::lexicographical_compare` of the standard library for forward iterators:
`for (; first1 != last1 && first2 != last2; ++first1, ++first2) {
if (*first1 < *first2) return true; if (*first2 < *first1) return false; }
return first1 == last1 && first2 != last2;` with `lt` the `operator<` of `Type`. -/
def std_lexicographical_compare (lt : α → α → Bool) (m : Heap α)
    (lhs rhs : SingleLinkedList α) (last1 last2 : BasicIterator) :
    Nat → BasicIterator → BasicIterator → Except Fault Bool
  | 0, _, _ => Except.error Fault.out_of_fuel
  | fuel + 1, first1, first2 =>
    if first1.ne last1 && first2.ne last2 then
      match first1.deref m lhs with
      | Except.error f => Except.error f
      | Except.ok x =>
        match first2.deref m rhs with
        | Except.error f => Except.error f
        | Except.ok y =>
          if lt x y then Except.ok true
          else if lt y x then Except.ok false
          else
            match first1.preIncrement m lhs with
            | Except.error f => Except.error f
            | Except.ok n1 =>
              match first2.preIncrement m rhs with
              | Except.error f => Except.error f
              | Except.ok n2 =>
                std_lexicographical_compare lt m lhs rhs last1 last2 fuel n1 n2
    else Except.ok (first1.eq last1 && first2.ne last2)

/-- The source's `operator<` on lists. -/
def operatorLt (lt : α → α → Bool) (fuel : Nat) (m : Heap α)
    (lhs rhs : SingleLinkedList α) : Except Fault Bool :=
  std_lexicographical_compare lt m lhs rhs (end_ lhs) (end_ rhs) fuel (begin lhs) (begin rhs)

/-- The source's `operator<=` on lists: `(lhs < rhs) || (lhs == rhs)`. -/
def operatorLe (lt eq : α → α → Bool) (fuel : Nat) (m : Heap α)
    (lhs rhs : SingleLinkedList α) : Except Fault Bool :=
  match operatorLt lt fuel m lhs rhs with
  | Except.error f => Except.error f
  | Except.ok true => Except.ok true
  | Except.ok false => operatorEq eq fuel m lhs rhs

/-- The source's `operator>` on lists: `!(lhs < rhs)`. -/
def operatorGt (lt : α → α → Bool) (fuel : Nat) (m : Heap α)
    (lhs rhs : SingleLinkedList α) : Except Fault Bool :=
  match operatorLt lt fuel m lhs rhs with
  | Except.error f => Except.error f
  | Except.ok b => Except.ok (!b)

/-- The source's `operator>=` on lists: `!(lhs < rhs) || (lhs == rhs)`. -/
def operatorGe (lt eq : α → α → Bool) (fuel : Nat) (m : Heap α)
    (lhs rhs : SingleLinkedList α) : Except Fault Bool :=
  match operatorLt lt fuel m lhs rhs with
  | Except.error f => Except.error f
  | Except.ok false => Except.ok true
  | Except.ok true => operatorEq eq fuel m lhs rhs

/-- What a lexicographic `less` is to compute on two sequences: at the first position
where one element is `lt` the other, whether the left one is the smaller; when there is
no such position, whether the left sequence is the shorter. -/
def lexLt (lt : α → α → Bool) : List α → List α → Bool
  | [], [] => false
  | [], _ :: _ => true
  | _ :: _, [] => false
  | x :: xs, y :: ys =>
    if lt x y then true else if lt y x then false else lexLt lt xs ys

/-- A free store with the nodes of four lists: `[1, 2, 3]` from address 0,
`[1, 2, 3, 4]` from address 3, `[1, 2]` from address 7 and `[1, 3]` from address 9. -/
def orderHeap : Heap Nat :=
  [some ⟨1, NodePtr.heap 1⟩, some ⟨2, NodePtr.heap 2⟩, some ⟨3, NodePtr.null⟩,
   some ⟨1, NodePtr.heap 4⟩, some ⟨2, NodePtr.heap 5⟩, some ⟨3, NodePtr.heap 6⟩,
   some ⟨4, NodePtr.null⟩,
   some ⟨1, NodePtr.heap 8⟩, some ⟨2, NodePtr.null⟩,
   some ⟨1, NodePtr.heap 10⟩, some ⟨3, NodePtr.null⟩]

/-- The list object of size `n` whose first node is at address `a`. -/
def listAt (a n : Nat) : SingleLinkedList Nat := ⟨⟨0, NodePtr.heap a⟩, n⟩

/-- An element `operator<` that is a strict order but not a total one: pairs compared by
their first component only. -/
def ltFirst (p q : Nat × Nat) : Bool := decide (p.1 < q.1)

/-- A free store with the nodes of two lists of pairs: `[(0, 0), (1, 0)]` from address 0
and `[(0, 1), (2, 0)]` from address 2. -/
def pairHeap : Heap (Nat × Nat) :=
  [some ⟨(0, 0), NodePtr.heap 1⟩, some ⟨(1, 0), NodePtr.null⟩,
   some ⟨(0, 1), NodePtr.heap 3⟩, some ⟨(2, 0), NodePtr.null⟩]

/-- The list object of pairs of size `n` whose first node is at address `a`. -/
def pairListAt (a n : Nat) : SingleLinkedList (Nat × Nat) := ⟨⟨(0, 0), NodePtr.heap a⟩, n⟩

/-! ## Chains of nodes in the free store -/

theorem chain_lt {m : Heap α} : ∀ {cs : List (Nat × α)} {p : NodePtr},
    Chain m p cs → ∀ c ∈ cs, c.1 < m.length
  | [], _, _, c, hc => by simp at hc
  | d :: cs, p, h, c, hc => by
    obtain ⟨_, q, hq, hrest⟩ := h
    rcases List.mem_cons.1 hc with rfl | hc
    · exact (List.getElem?_eq_some.1 hq).1
    · exact chain_lt hrest c hc

theorem chain_append {m : Heap α} (ext : Heap α) : ∀ {cs : List (Nat × α)} {p : NodePtr},
    Chain m p cs → Chain (m ++ ext) p cs
  | [], _, h => h
  | d :: cs, p, h => by
    obtain ⟨hp, q, hq, hrest⟩ := h
    refine ⟨hp, q, ?_, chain_append ext hrest⟩
    rw [List.getElem?_append_left (List.getElem?_eq_some.1 hq).1]
    exact hq

theorem chain_set {m : Heap α} (a : Nat) (v : Option (Node α)) :
    ∀ {cs : List (Nat × α)} {p : NodePtr},
    Chain m p cs → (∀ c ∈ cs, c.1 ≠ a) → Chain (m.set a v) p cs
  | [], _, h, _ => h
  | d :: cs, p, h, hne => by
    obtain ⟨hp, q, hq, hrest⟩ := h
    refine ⟨hp, q, ?_, chain_set a v hrest (fun c hc => hne c (List.mem_cons_of_mem _ hc))⟩
    rw [List.getElem?_set_ne (Ne.symm (hne d (List.mem_cons_self _ _)))]
    exact hq

theorem chain_unique {m : Heap α} : ∀ {cs cs2 : List (Nat × α)} {p : NodePtr},
    Chain m p cs → Chain m p cs2 → cs = cs2
  | [], [], _, _, _ => rfl
  | [], d :: cs2, p, h1, h2 => by
    have h1 : p = NodePtr.null := h1
    obtain ⟨hp, _⟩ := h2
    rw [h1] at hp
    cases hp
  | d :: cs, [], p, h1, h2 => by
    have h2 : p = NodePtr.null := h2
    obtain ⟨hp, _⟩ := h1
    rw [h2] at hp
    cases hp
  | d :: cs, e :: cs2, p, h1, h2 => by
    obtain ⟨hp1, q1, hq1, hr1⟩ := h1
    obtain ⟨hp2, q2, hq2, hr2⟩ := h2
    rw [hp1] at hp2
    have ha : d.1 = e.1 := by injection hp2
    rw [← ha, hq1] at hq2
    have hn : (⟨d.2, q1⟩ : Node α) = ⟨e.2, q2⟩ := by
      injection hq2 with h
      injection h
    have hv : d.2 = e.2 := by injection hn
    have hq : q1 = q2 := by injection hn
    subst hq
    have := chain_unique hr1 hr2
    subst this
    have : d = e := Prod.ext ha hv
    rw [this]

theorem chain_mem_suffix {m : Heap α} : ∀ {cs : List (Nat × α)} {p : NodePtr},
    Chain m p cs → ∀ c ∈ cs, ∃ pre post, cs = pre ++ c :: post ∧ Chain m (NodePtr.heap c.1) (c :: post)
  | [], _, _, c, hc => by simp at hc
  | d :: cs, p, h, c, hc => by
    rcases List.mem_cons.1 hc with rfl | hc
    · refine ⟨[], cs, rfl, ?_⟩
      obtain ⟨_, q, hq, hrest⟩ := h
      exact ⟨rfl, q, hq, hrest⟩
    · obtain ⟨_, q, hq, hrest⟩ := h
      obtain ⟨pre, post, he, hch⟩ := chain_mem_suffix hrest c hc
      exact ⟨d :: pre, post, by rw [he]; rfl, hch⟩

theorem chain_head_not_mem {m : Heap α} {c : Nat × α} {cs : List (Nat × α)} {p : NodePtr}
    (h : Chain m p (c :: cs)) : ∀ d ∈ cs, d.1 ≠ c.1 := by
  intro d hd hdc
  obtain ⟨hp, q, hq, hrest⟩ := h
  obtain ⟨pre, post, he, hch⟩ := chain_mem_suffix hrest d hd
  have h2 : Chain m (NodePtr.heap d.1) (c :: cs) := by
    rw [hdc]
    exact ⟨rfl, q, hq, hrest⟩
  have := chain_unique hch h2
  have hl := congrArg List.length this
  rw [he] at hl
  simp at hl
  omega

theorem chain_nodup {m : Heap α} : ∀ {cs : List (Nat × α)} {p : NodePtr},
    Chain m p cs → (cs.map Prod.fst).Nodup
  | [], _, _ => List.nodup_nil
  | d :: cs, p, h => by
    have hn := chain_head_not_mem h
    obtain ⟨_, q, hq, hrest⟩ := h
    rw [List.map_cons, List.nodup_cons]
    refine ⟨?_, chain_nodup hrest⟩
    intro hmem
    obtain ⟨e, he, hee⟩ := List.mem_map.1 hmem
    exact hn e he hee

theorem chain_headPtr {m : Heap α} {cs : List (Nat × α)} {p : NodePtr} (h : Chain m p cs) :
    p = headPtr cs := by
  cases cs with
  | nil => exact h
  | cons c cs => exact h.1

theorem chain_frame {m m2 : Heap α} : ∀ {cs : List (Nat × α)} {p : NodePtr},
    Chain m p cs → (∀ c ∈ cs, m2[c.1]? = m[c.1]?) → Chain m2 p cs
  | [], _, h, _ => h
  | d :: cs, p, h, hf => by
    obtain ⟨hp, q, hq, hrest⟩ := h
    refine ⟨hp, q, ?_, chain_frame hrest (fun c hc => hf c (List.mem_cons_of_mem _ hc))⟩
    rw [hf d (List.mem_cons_self _ _)]
    exact hq

theorem chain_cell {m : Heap α} {c : Nat × α} {post : List (Nat × α)} :
    ∀ (pre : List (Nat × α)) {p : NodePtr}, Chain m p (pre ++ c :: post) →
    m[c.1]? = some (some ⟨c.2, headPtr post⟩) ∧ Chain m (headPtr post) post
  | [], p, h => by
    obtain ⟨_, q, hq, hrest⟩ := h
    have := chain_headPtr hrest
    subst this
    exact ⟨hq, hrest⟩
  | e :: pre, p, h => by
    obtain ⟨_, q, hq, hrest⟩ := h
    exact chain_cell pre hrest

theorem chain_insert {m : Heap α} {c : Nat × α} {post : List (Nat × α)} (v : α) :
    ∀ (pre : List (Nat × α)) {p : NodePtr}, Chain m p (pre ++ c :: post) →
    Chain ((m ++ [some (⟨v, headPtr post⟩ : Node α)]).set c.1 (some ⟨c.2, NodePtr.heap m.length⟩))
      p (pre ++ c :: (m.length, v) :: post)
  | [], p, h => by
    have hn := chain_head_not_mem h
    have hl := chain_lt h
    obtain ⟨hp, q, hq, hrest⟩ := h
    have hc : c.1 < m.length := hl c (List.mem_cons_self _ _)
    have hqp := chain_headPtr hrest
    subst hqp
    refine ⟨hp, NodePtr.heap m.length, ?_, rfl, headPtr post, ?_, ?_⟩
    · rw [List.getElem?_set_self]
      simp
      omega
    · rw [List.getElem?_set_ne (by omega)]
      simp
    · apply chain_frame hrest
      intro d hd
      have h1 : d.1 < m.length := hl d (List.mem_cons_of_mem _ hd)
      rw [List.getElem?_set_ne (Ne.symm (hn d hd)), List.getElem?_append_left h1]
  | e :: pre, p, h => by
    have hn := chain_head_not_mem h
    have hl := chain_lt h
    obtain ⟨hp, q, hq, hrest⟩ := h
    refine ⟨hp, q, ?_, chain_insert v pre hrest⟩
    have h1 : e.1 < m.length := hl e (List.mem_cons_self _ _)
    have h2 : c.1 ≠ e.1 := hn c (by simp)
    rw [List.getElem?_set_ne h2, List.getElem?_append_left h1]
    exact hq

theorem chain_erase {m : Heap α} {c d : Nat × α} {post : List (Nat × α)} :
    ∀ (pre : List (Nat × α)) {p : NodePtr}, Chain m p (pre ++ c :: d :: post) →
    Chain ((m.set c.1 (some ⟨c.2, headPtr post⟩)).set d.1 none) p (pre ++ c :: post)
  | [], p, h => by
    have hn := chain_head_not_mem h
    have hl := chain_lt h
    obtain ⟨hp, q, hq, hrest⟩ := h
    have hn2 := chain_head_not_mem hrest
    obtain ⟨_, q2, hq2, hrest2⟩ := hrest
    have hqp := chain_headPtr hrest2
    subst hqp
    have hc : c.1 < m.length := hl c (List.mem_cons_self _ _)
    refine ⟨hp, headPtr post, ?_, ?_⟩
    · rw [List.getElem?_set_ne (hn d (by simp)), List.getElem?_set_self hc]
    · apply chain_frame hrest2
      intro e he
      rw [List.getElem?_set_ne (Ne.symm (hn2 e he)),
        List.getElem?_set_ne (Ne.symm (hn e (by simp [he])))]
  | e :: pre, p, h => by
    have hn := chain_head_not_mem h
    obtain ⟨hp, q, hq, hrest⟩ := h
    refine ⟨hp, q, ?_, chain_erase pre hrest⟩
    rw [List.getElem?_set_ne (hn d (by simp)), List.getElem?_set_ne (hn c (by simp))]
    exact hq

theorem chain_pop {m : Heap α} {c : Nat × α} {post : List (Nat × α)} {p : NodePtr}
    (h : Chain m p (c :: post)) : Chain (m.set c.1 none) (headPtr post) post := by
  have hn := chain_head_not_mem h
  obtain ⟨hp, q, hq, hrest⟩ := h
  have hqp := chain_headPtr hrest
  subst hqp
  apply chain_frame hrest
  intro e he
  rw [List.getElem?_set_ne (Ne.symm (hn e he))]

theorem advance_chain {m : Heap α} (L : SingleLinkedList α) :
    ∀ (k : Nat) {cs : List (Nat × α)} {p : NodePtr}, Chain m p cs → k ≤ cs.length →
    advance m L k ⟨p⟩ = Except.ok ⟨headPtr (cs.drop k)⟩
  | 0, cs, p, h, _ => by
    rw [advance, List.drop_zero, chain_headPtr h]
  | k + 1, [], p, h, hk => by simp at hk
  | k + 1, c :: cs, p, h, hk => by
    obtain ⟨hp, q, hq, hrest⟩ := h
    subst hp
    have ih := advance_chain L k hrest (by simpa using hk)
    simp only [advance, BasicIterator.preIncrement, getNext, hq, List.drop_succ_cons]
    exact ih

theorem advance_before_begin {m : Heap α} (L : SingleLinkedList α) {cs : List (Nat × α)}
    (h : Chain m L.head_.next_node cs) (j : Nat) (hj : j ≤ cs.length) :
    advance m L (j + 1) (before_begin L) = Except.ok ⟨headPtr (cs.drop j)⟩ := by
  simp only [advance, before_begin, BasicIterator.preIncrement, getNext]
  exact advance_chain L j h hj

/-! ## Traversal and chains -/

theorem traverse_succ {m : Heap α} {L : SingleLinkedList α} :
    ∀ (fuel : Nat) (it : BasicIterator) (r : List α),
    traverse m L fuel it = Except.ok r → traverse m L (fuel + 1) it = Except.ok r
  | 0, _, _, h => by simp [traverse] at h
  | fuel + 1, it, r, h => by
    rw [traverse] at h ⊢
    by_cases hne : it.ne (end_ L) = true
    · simp only [hne, if_true] at h ⊢
      cases hd : it.deref m L with
      | error f => simp [hd] at h
      | ok x =>
        cases hi : it.preIncrement m L with
        | error f => simp [hd, hi] at h
        | ok it1 =>
          cases ht : traverse m L fuel it1 with
          | error f => simp [hd, hi, ht] at h
          | ok rest =>
            simp only [hd, hi, ht] at h
            simp only [hd, hi, traverse_succ fuel it1 rest ht]
            exact h
    · simp only [hne] at h ⊢
      exact h

theorem traverse_mono {m : Heap α} {L : SingleLinkedList α} {it : BasicIterator}
    {r : List α} {fuel : Nat} (h : traverse m L fuel it = Except.ok r) :
    ∀ k, traverse m L (fuel + k) it = Except.ok r
  | 0 => h
  | k + 1 => traverse_succ _ _ _ (traverse_mono h k)

theorem traverse_det {m : Heap α} {L : SingleLinkedList α} {it : BasicIterator}
    {r1 r2 : List α} {f1 f2 : Nat} (h1 : traverse m L f1 it = Except.ok r1)
    (h2 : traverse m L f2 it = Except.ok r2) : r1 = r2 := by
  have a := traverse_mono h1 f2
  have b := traverse_mono h2 f1
  rw [Nat.add_comm] at b
  rw [a] at b
  injection b

theorem traverse_of_chain {m : Heap α} (L : SingleLinkedList α) :
    ∀ {cs : List (Nat × α)} {p : NodePtr}, Chain m p cs →
    ∀ fuel, cs.length < fuel → traverse m L fuel ⟨p⟩ = Except.ok (cs.map Prod.snd)
  | [], p, h, fuel, hf => by
    have hp : p = NodePtr.null := h
    subst hp
    obtain ⟨f, rfl⟩ : ∃ f, fuel = f + 1 := ⟨fuel - 1, by omega⟩
    simp [traverse, BasicIterator.ne, end_]
  | c :: cs, p, h, fuel, hf => by
    obtain ⟨hp, q, hq, hrest⟩ := h
    subst hp
    obtain ⟨f, rfl⟩ : ∃ f, fuel = f + 1 := ⟨fuel - 1, by omega⟩
    have ih := traverse_of_chain L hrest f (by simpa using hf)
    simp [traverse, BasicIterator.ne, end_, BasicIterator.deref, BasicIterator.preIncrement,
      getValue, getNext, hq, ih]

theorem traverse_cases {m : Heap α} {L : SingleLinkedList α} {fuel : Nat} {p : NodePtr}
    {xs : List α} (h : traverse m L (fuel + 1) ⟨p⟩ = Except.ok xs) :
    (p = NodePtr.null ∧ xs = []) ∨
    (p = NodePtr.head ∧ ∃ rest, xs = L.head_.value :: rest ∧
      traverse m L fuel ⟨L.head_.next_node⟩ = Except.ok rest) ∨
    (∃ a x q rest, p = NodePtr.heap a ∧ m[a]? = some (some ⟨x, q⟩) ∧ xs = x :: rest ∧
      traverse m L fuel ⟨q⟩ = Except.ok rest) := by
  rw [traverse] at h
  cases p with
  | null =>
    left
    simp [BasicIterator.ne, end_] at h
    exact ⟨rfl, h⟩
  | head =>
    right; left
    simp only [BasicIterator.ne, end_, BasicIterator.deref, BasicIterator.preIncrement,
      getValue, getNext] at h
    cases ht : traverse m L fuel ⟨L.head_.next_node⟩ with
    | error f => simp [ht] at h
    | ok rest =>
      simp [ht] at h
      exact ⟨rfl, rest, h.symm, rfl⟩
  | heap a =>
    right; right
    simp only [BasicIterator.ne, end_, BasicIterator.deref, BasicIterator.preIncrement,
      getValue, getNext] at h
    cases hc : m[a]? with
    | none => rw [hc] at h; simp at h
    | some o =>
      cases o with
      | none => rw [hc] at h; simp at h
      | some n =>
        rw [hc] at h
        cases ht : traverse m L fuel ⟨n.next_node⟩ with
        | error f => simp [ht] at h
        | ok rest =>
          simp [ht] at h
          exact ⟨a, n.value, n.next_node, rest, rfl, hc, h.symm, ht⟩

theorem traverse_chain_or_cycle {m : Heap α} {L : SingleLinkedList α} :
    ∀ (fuel : Nat) (p : NodePtr) (xs : List α), traverse m L fuel ⟨p⟩ = Except.ok xs →
    (∃ cs, Chain m p cs ∧ cs.map Prod.snd = xs) ∨
    (∃ ys f, ys.length < xs.length ∧ traverse m L f ⟨L.head_.next_node⟩ = Except.ok ys)
  | 0, _, _, h => by simp [traverse] at h
  | fuel + 1, p, xs, h => by
    rcases traverse_cases h with ⟨hp, hx⟩ | ⟨hp, rest, hx, ht⟩ | ⟨a, x, q, rest, hp, hc, hx, ht⟩
    · left
      exact ⟨[], hp, by simp [hx]⟩
    · right
      exact ⟨rest, fuel, by simp [hx], ht⟩
    · rcases traverse_chain_or_cycle fuel q rest ht with ⟨cs, hch, hm⟩ | ⟨ys, f, hl, hy⟩
      · left
        exact ⟨(a, x) :: cs, ⟨hp, q, hc, hch⟩, by simp [hx, hm]⟩
      · right
        exact ⟨ys, f, by simp [hx]; omega, hy⟩

theorem chain_of_elements {m : Heap α} {L : SingleLinkedList α} {xs : List α}
    (h : Elements m L xs) : ∃ cs, Chain m L.head_.next_node cs ∧ cs.map Prod.snd = xs := by
  obtain ⟨fuel, hf⟩ := h
  rcases traverse_chain_or_cycle fuel _ xs hf with hc | ⟨ys, f, hl, hy⟩
  · exact hc
  · have := traverse_det hf hy
    rw [this] at hl
    exact absurd hl (Nat.lt_irrefl _)

theorem elements_of_chain {m : Heap α} {L : SingleLinkedList α} {cs : List (Nat × α)}
    (h : Chain m L.head_.next_node cs) : Elements m L (cs.map Prod.snd) :=
  ⟨cs.length + 1, traverse_of_chain L h _ (Nat.lt_succ_self _)⟩

theorem elements_det {m : Heap α} {L : SingleLinkedList α} {xs ys : List α}
    (h1 : Elements m L xs) (h2 : Elements m L ys) : xs = ys := by
  obtain ⟨f1, h1⟩ := h1
  obtain ⟨f2, h2⟩ := h2
  exact traverse_det h1 h2

/-! ## The range constructor -/

theorem SIZE_MOD_pos : 0 < SIZE_MOD := by decide

theorem succ_mod_add (s n : Nat) :
    ((s + 1) % SIZE_MOD + n) % SIZE_MOD = (s + (n + 1)) % SIZE_MOD := by
  rw [Nat.mod_add_mod]
  congr 1
  omega

theorem linkStep_tail {m : Heap α} (tmp : SingleLinkedList α) {a : Nat} {xa : α} (x : α)
    (h : m[a]? = some (some ⟨xa, NodePtr.null⟩)) :
    linkStep some m tmp ⟨NodePtr.heap a⟩ x =
      Except.ok (some ((m ++ [some (⟨x, NodePtr.null⟩ : Node α)]).set a
        (some ⟨xa, NodePtr.heap m.length⟩),
        ⟨tmp.head_, (tmp.size_ + 1) % SIZE_MOD⟩, ⟨NodePtr.heap m.length⟩)) := by
  have hlt : a < m.length := (List.getElem?_eq_some.1 h).1
  have h1 : (m ++ [some (⟨x, NodePtr.null⟩ : Node α)])[a]? = some (some ⟨xa, NodePtr.null⟩) := by
    rw [List.getElem?_append_left hlt]
    exact h
  have h2 : ((m ++ [some (⟨x, NodePtr.null⟩ : Node α)]).set a
      (some ⟨xa, NodePtr.heap m.length⟩))[a]? = some (some ⟨xa, NodePtr.heap m.length⟩) := by
    rw [List.getElem?_set_self]
    simp
    omega
  simp only [linkStep, getNext, h, newNode, setNext, h1, BasicIterator.preIncrement, h2]

theorem linkStep_head {m : Heap α} (tmp : SingleLinkedList α) (x : α)
    (h : tmp.head_.next_node = NodePtr.null) :
    linkStep some m tmp ⟨NodePtr.head⟩ x =
      Except.ok (some (m ++ [some (⟨x, NodePtr.null⟩ : Node α)],
        ⟨⟨tmp.head_.value, NodePtr.heap m.length⟩, (tmp.size_ + 1) % SIZE_MOD⟩,
        ⟨NodePtr.heap m.length⟩)) := by
  simp only [linkStep, getNext, h, newNode, setNext, BasicIterator.preIncrement]

theorem rangeLoop_tail : ∀ (S : List α) (m : Heap α) (tmp : SingleLinkedList α) (a : Nat)
    (xa : α), m[a]? = some (some ⟨xa, NodePtr.null⟩) → tmp.size_ < SIZE_MOD →
    ∃ m1 tmp1 q cs, rangeLoop some S m tmp ⟨NodePtr.heap a⟩ = Except.ok (m1, tmp1, true) ∧
      tmp1.head_ = tmp.head_ ∧ tmp1.size_ = (tmp.size_ + S.length) % SIZE_MOD ∧
      m1.length = m.length + S.length ∧
      (∀ b, b < m.length → b ≠ a → m1[b]? = m[b]?) ∧
      m1[a]? = some (some ⟨xa, q⟩) ∧
      Chain m1 q cs ∧ cs.map Prod.snd = S ∧ (∀ c ∈ cs, m.length ≤ c.1)
  | [], m, tmp, a, xa, h, hs => by
    refine ⟨m, tmp, NodePtr.null, [], rfl, rfl, ?_, rfl, fun _ _ _ => rfl, h, rfl, rfl, ?_⟩
    · simp [Nat.mod_eq_of_lt hs]
    · intro c hc
      simp at hc
  | x :: rest, m, tmp, a, xa, h, hs => by
    have hlt : a < m.length := (List.getElem?_eq_some.1 h).1
    have hnew : ((m ++ [some (⟨x, NodePtr.null⟩ : Node α)]).set a
        (some ⟨xa, NodePtr.heap m.length⟩))[m.length]? = some (some ⟨x, NodePtr.null⟩) := by
      rw [List.getElem?_set_ne (by omega)]
      simp
    obtain ⟨m1, tmp1, q, cs, hrun, hhead, hsize, hlen, hframe, hcell, hch, hmap, hge⟩ :=
      rangeLoop_tail rest _ ⟨tmp.head_, (tmp.size_ + 1) % SIZE_MOD⟩ m.length x hnew
        (Nat.mod_lt _ SIZE_MOD_pos)
    have hlen2 : ((m ++ [some (⟨x, NodePtr.null⟩ : Node α)]).set a
        (some ⟨xa, NodePtr.heap m.length⟩)).length = m.length + 1 := by simp
    rw [hlen2] at hlen hframe hge
    refine ⟨m1, tmp1, NodePtr.heap m.length, (m.length, x) :: cs, ?_, hhead, ?_, ?_, ?_, ?_,
      ⟨rfl, q, hcell, hch⟩, by simp [hmap], ?_⟩
    · rw [rangeLoop, linkStep_tail tmp x h]
      exact hrun
    · rw [hsize, List.length_cons]
      exact succ_mod_add _ _
    · rw [hlen, List.length_cons]
      omega
    · intro b hb hba
      rw [hframe b (by omega) (by omega), List.getElem?_set_ne (Ne.symm hba),
        List.getElem?_append_left hb]
    · rw [hframe a (by omega) (by omega), List.getElem?_set_self]
      simp
      omega
    · intro c hc
      rcases List.mem_cons.1 hc with rfl | hc
      · exact Nat.le_refl _
      · have := hge c hc
        omega

theorem rangeLoop_head (S : List α) (m : Heap α) (tmp : SingleLinkedList α)
    (h : tmp.head_.next_node = NodePtr.null) (hs : tmp.size_ < SIZE_MOD) :
    ∃ m1 tmp1 cs, rangeLoop some S m tmp ⟨NodePtr.head⟩ = Except.ok (m1, tmp1, true) ∧
      tmp1.head_.value = tmp.head_.value ∧ tmp1.size_ = (tmp.size_ + S.length) % SIZE_MOD ∧
      m1.length = m.length + S.length ∧
      (∀ b, b < m.length → m1[b]? = m[b]?) ∧
      Chain m1 tmp1.head_.next_node cs ∧ cs.map Prod.snd = S ∧ (∀ c ∈ cs, m.length ≤ c.1) := by
  cases S with
  | nil =>
    refine ⟨m, tmp, [], rfl, rfl, ?_, rfl, fun _ _ => rfl, h, rfl, ?_⟩
    · simp [Nat.mod_eq_of_lt hs]
    · intro c hc
      simp at hc
  | cons x rest =>
    have hnew : (m ++ [some (⟨x, NodePtr.null⟩ : Node α)])[m.length]? =
        some (some ⟨x, NodePtr.null⟩) := by simp
    obtain ⟨m1, tmp1, q, cs, hrun, hhead, hsize, hlen, hframe, hcell, hch, hmap, hge⟩ :=
      rangeLoop_tail rest _ ⟨⟨tmp.head_.value, NodePtr.heap m.length⟩,
        (tmp.size_ + 1) % SIZE_MOD⟩ m.length x hnew (Nat.mod_lt _ SIZE_MOD_pos)
    have hlen2 : (m ++ [some (⟨x, NodePtr.null⟩ : Node α)]).length = m.length + 1 := by simp
    rw [hlen2] at hlen hframe hge
    refine ⟨m1, tmp1, (m.length, x) :: cs, ?_, ?_, ?_, ?_, ?_, ?_, by simp [hmap], ?_⟩
    · rw [rangeLoop, linkStep_head tmp x h]
      exact hrun
    · rw [hhead]
    · rw [hsize, List.length_cons]
      exact succ_mod_add _ _
    · rw [hlen, List.length_cons]
      omega
    · intro b hb
      rw [hframe b (by omega) (by omega), List.getElem?_append_left hb]
    · rw [hhead]
      exact ⟨rfl, q, hcell, hch⟩
    · intro c hc
      rcases List.mem_cons.1 hc with rfl | hc
      · exact Nat.le_refl _
      · have := hge c hc
        omega

theorem Clear_null (fuel : Nat) (m : Heap α) (L : SingleLinkedList α)
    (h : L.head_.next_node = NodePtr.null) :
    Clear (fuel + 1) m L = Except.ok (m, ⟨L.head_, 0⟩) := by
  simp [Clear, h]

theorem rangeCtor_spec [Inhabited α] (fuel : Nat) (m : Heap α) (S : List α) (hf : 0 < fuel) :
    ∃ m1 L cs, RangeCtor fuel some m S = Except.ok (m1, some L) ∧
      L.size_ = S.length % SIZE_MOD ∧ m1.length = m.length + S.length ∧
      (∀ b, b < m.length → m1[b]? = m[b]?) ∧
      Chain m1 L.head_.next_node cs ∧ cs.map Prod.snd = S ∧ (∀ c ∈ cs, m.length ≤ c.1) := by
  obtain ⟨f, rfl⟩ : ∃ f, fuel = f + 1 := ⟨fuel - 1, by omega⟩
  obtain ⟨m1, tmp1, cs, hrun, _, hsize, hlen, hframe, hch, hmap, hge⟩ :=
    rangeLoop_head S m (empty : SingleLinkedList α) rfl SIZE_MOD_pos
  refine ⟨m1, ⟨⟨default, tmp1.head_.next_node⟩, tmp1.size_⟩, cs, ?_, ?_, hlen, hframe, hch,
    hmap, hge⟩
  · simp only [RangeCtor, empty, and_self, if_true] at hrun ⊢
    rw [hrun]
    simp only [finishCtor, swap, if_true]
    rw [Clear_null f m1 _ rfl]
  · rw [hsize]
    simp [empty]

/-- C1. For every input sequence `S` whose length a `size_t` can hold, the range constructor
and the initializer-list constructor (which delegates to it) construct a list whose
traversal from `begin()` to `end()` yields exactly `S` in order, and `GetSize()` is the
length of `S`. `fuel` bounds the loop of the destructor of the temporary. -/
theorem C1_range_ctor_traversal_and_size [Inhabited α] (m : Heap α) (S : List α) (fuel : Nat)
    (hfuel : 0 < fuel) (hlen : S.length < SIZE_MOD) :
    ∃ m1 L, RangeCtor fuel some m S = Except.ok (m1, some L) ∧
      InitListCtor fuel some m S = Except.ok (m1, some L) ∧
      (∀ k, traverse m1 L (S.length + 1 + k) (begin L) = Except.ok S) ∧
      GetSize L = S.length := by
  obtain ⟨m1, L, cs, hrun, hsize, _, _, hch, hmap, _⟩ := rangeCtor_spec fuel m S hfuel
  refine ⟨m1, L, hrun, hrun, ?_, ?_⟩
  · intro k
    have hl : cs.length = S.length := by rw [← hmap, List.length_map]
    have := traverse_of_chain L hch (S.length + 1 + k) (by omega)
    rw [hmap] at this
    exact this
  · rw [GetSize, hsize, Nat.mod_eq_of_lt hlen]

/-- C1 at the initializer list `{1, 2, 3}` in an empty free store. -/
theorem C1_witness :
    ∃ m1 L, RangeCtor 1 some ([] : Heap Nat) [1, 2, 3] = Except.ok (m1, some L) ∧
      InitListCtor 1 some ([] : Heap Nat) [1, 2, 3] = Except.ok (m1, some L) ∧
      (∀ k, traverse m1 L (3 + 1 + k) (begin L) = Except.ok [1, 2, 3]) ∧
      GetSize L = 3 :=
  C1_range_ctor_traversal_and_size [] [1, 2, 3] 1 (by decide) (by decide)

/-! ## The operations on chains -/

theorem chain_suffix {m : Heap α} {rest : List (Nat × α)} :
    ∀ (pre : List (Nat × α)) {p : NodePtr}, Chain m p (pre ++ rest) →
    Chain m (headPtr rest) rest
  | [], p, h => by
    have := chain_headPtr h
    rw [List.nil_append] at this h
    rw [← this]
    exact h
  | e :: pre, p, h => by
    obtain ⟨_, q, hq, hrest⟩ := h
    exact chain_suffix pre hrest

theorem dec_inc_mod {s : Nat} (h : s < SIZE_MOD) :
    (SIZE_MOD - 1 + (s + 1) % SIZE_MOD) % SIZE_MOD = s := by
  unfold SIZE_MOD at *
  omega

theorem dec_mod {s : Nat} (h0 : 0 < s) (h : s < SIZE_MOD) :
    (SIZE_MOD - 1 + s) % SIZE_MOD + 1 = s := by
  unfold SIZE_MOD at *
  omega

theorem PushFront_chain {m : Heap α} {L : SingleLinkedList α} {cs : List (Nat × α)} (v : α)
    (h : Chain m L.head_.next_node cs) :
    Chain (PushFront m L v).1 (PushFront m L v).2.head_.next_node ((m.length, v) :: cs) := by
  refine ⟨rfl, L.head_.next_node, ?_, chain_append _ h⟩
  simp [PushFront, newNode]

theorem PopFront_nil {m : Heap α} {L : SingleLinkedList α}
    (h : L.head_.next_node = NodePtr.null) : PopFront m L = Except.ok (m, L) := by
  simp [PopFront, begin, end_, BasicIterator.eq, h]

theorem PopFront_cons {m : Heap α} {L : SingleLinkedList α} {c : Nat × α}
    {post : List (Nat × α)} (h : Chain m L.head_.next_node (c :: post)) :
    PopFront m L = Except.ok (m.set c.1 none,
      ⟨⟨L.head_.value, headPtr post⟩, (SIZE_MOD - 1 + L.size_) % SIZE_MOD⟩) := by
  have hc := (chain_cell [] h).1
  have hp : L.head_.next_node = NodePtr.heap c.1 := h.1
  simp [PopFront, begin, end_, BasicIterator.eq, hp, getNext, hc, deleteNode]

theorem InsertAfter_head (m : Heap α) (L : SingleLinkedList α) (v : α) :
    InsertAfter m L (before_begin L) v =
      Except.ok ((PushFront m L v).1, (PushFront m L v).2, begin (PushFront m L v).2) := by
  simp [InsertAfter, before_begin, getNext, newNode, setNext, PushFront, begin]

theorem InsertAfter_node {m : Heap α} (L : SingleLinkedList α) {c : Nat × α}
    {pre post : List (Nat × α)} {p : NodePtr} (v : α) (h : Chain m p (pre ++ c :: post)) :
    InsertAfter m L ⟨NodePtr.heap c.1⟩ v =
      Except.ok ((m ++ [some (⟨v, headPtr post⟩ : Node α)]).set c.1
        (some ⟨c.2, NodePtr.heap m.length⟩),
        ⟨L.head_, (L.size_ + 1) % SIZE_MOD⟩, ⟨NodePtr.heap m.length⟩) := by
  have hc := (chain_cell pre h).1
  have hlt : c.1 < m.length := (List.getElem?_eq_some.1 hc).1
  have h1 : (m ++ [some (⟨v, headPtr post⟩ : Node α)])[c.1]? =
      some (some ⟨c.2, headPtr post⟩) := by
    rw [List.getElem?_append_left hlt]
    exact hc
  simp [InsertAfter, getNext, hc, newNode, setNext, h1]

theorem EraseAfter_nil {m : Heap α} {L : SingleLinkedList α} {pos : BasicIterator}
    (h : L.head_.next_node = NodePtr.null) (hpos : pos.node_ ≠ NodePtr.null) :
    EraseAfter m L pos = Except.ok (m, L, ⟨NodePtr.null⟩) := by
  simp [EraseAfter, hpos, begin, end_, BasicIterator.eq, h]

theorem EraseAfter_head {m : Heap α} {L : SingleLinkedList α} {c : Nat × α}
    {post : List (Nat × α)} (h : Chain m L.head_.next_node (c :: post)) :
    EraseAfter m L (before_begin L) = Except.ok (m.set c.1 none,
      ⟨⟨L.head_.value, headPtr post⟩, (SIZE_MOD - 1 + L.size_) % SIZE_MOD⟩,
      ⟨headPtr post⟩) := by
  have hc := (chain_cell [] h).1
  have hp : L.head_.next_node = NodePtr.heap c.1 := h.1
  simp [EraseAfter, before_begin, begin, end_, BasicIterator.eq, hp, getNext, hc, setNext,
    deleteNode]

theorem EraseAfter_node {m : Heap α} {L : SingleLinkedList α} {c d : Nat × α}
    {pre post : List (Nat × α)} (h : Chain m L.head_.next_node (pre ++ c :: d :: post)) :
    EraseAfter m L ⟨NodePtr.heap c.1⟩ = Except.ok
      ((m.set c.1 (some ⟨c.2, headPtr post⟩)).set d.1 none,
      ⟨L.head_, (SIZE_MOD - 1 + L.size_) % SIZE_MOD⟩, ⟨headPtr post⟩) := by
  have hc : m[c.1]? = some (some ⟨c.2, NodePtr.heap d.1⟩) := (chain_cell pre h).1
  have hd : m[d.1]? = some (some ⟨d.2, headPtr post⟩) := by
    have h2 : Chain m L.head_.next_node ((pre ++ [c]) ++ d :: post) := by simpa using h
    exact (chain_cell (pre ++ [c]) h2).1
  have hne : c.1 ≠ d.1 := by
    have h3 := chain_suffix pre h
    exact Ne.symm (chain_head_not_mem h3 d (List.mem_cons_self _ _))
  have hnn : L.head_.next_node ≠ NodePtr.null := by
    have := chain_headPtr h
    rw [this]
    cases pre <;> simp [headPtr]
  have hlt : c.1 < m.length := (List.getElem?_eq_some.1 hc).1
  have hd2 : (m.set c.1 (some (⟨c.2, headPtr post⟩ : Node α)))[d.1]? =
      some (some ⟨d.2, headPtr post⟩) := by
    rw [List.getElem?_set_ne hne]
    exact hd
  simp [EraseAfter, begin, end_, BasicIterator.eq, hnn, getNext, hc, hd, setNext,
    deleteNode, hd2]

theorem Clear_chain : ∀ (cs : List (Nat × α)) (m : Heap α) (L : SingleLinkedList α)
    (fuel : Nat), Chain m L.head_.next_node cs → cs.length < fuel →
    ∃ m1, Clear fuel m L = Except.ok (m1, ⟨⟨L.head_.value, NodePtr.null⟩, 0⟩) ∧
      m1.length = m.length ∧ ∀ b, (∀ c ∈ cs, c.1 ≠ b) → m1[b]? = m[b]?
  | [], m, L, fuel, h, hf => by
    obtain ⟨f, rfl⟩ : ∃ f, fuel = f + 1 := ⟨fuel - 1, by omega⟩
    have hn : L.head_.next_node = NodePtr.null := h
    refine ⟨m, ?_, rfl, fun _ _ => rfl⟩
    rw [Clear_null f m L hn]
    cases L with
    | mk hd sz =>
      cases hd with
      | mk v n =>
        simp at hn
        simp [hn]
  | c :: post, m, L, fuel, h, hf => by
    obtain ⟨f, rfl⟩ : ∃ f, fuel = f + 1 := ⟨fuel - 1, by omega⟩
    have hc := (chain_cell [] h).1
    have hp : L.head_.next_node = NodePtr.heap c.1 := h.1
    have hpop := chain_pop h
    obtain ⟨m1, hrun, hlen, hframe⟩ := Clear_chain post (m.set c.1 none)
      ⟨⟨L.head_.value, headPtr post⟩, L.size_⟩ f hpop (by simpa using hf)
    refine ⟨m1, ?_, by simpa using hlen, ?_⟩
    · simp only [Clear, hp, getNext, hc, deleteNode]
      simpa using hrun
    · intro b hb
      rw [hframe b (fun e he => hb e (List.mem_cons_of_mem _ he)),
        List.getElem?_set_ne (hb c (List.mem_cons_self _ _))]

/-! ## The copy constructor and the assignment -/

theorem linkStep_frame {copy : α → Option α} {m m2 : Heap α} {tmp tmp2 : SingleLinkedList α}
    {il it2 : BasicIterator} {x : α}
    (h : linkStep copy m tmp il x = Except.ok (some (m2, tmp2, it2))) :
    it2.node_ = NodePtr.heap m.length ∧
      ∀ b, b < m.length → NodePtr.heap b ≠ il.node_ → m2[b]? = m[b]? := by
  obtain ⟨p⟩ := il
  cases p with
  | null => simp [linkStep, getNext] at h
  | head =>
    cases hc : copy x with
    | none => simp [linkStep, getNext, hc] at h
    | some v =>
      simp only [linkStep, getNext, hc, newNode, setNext, BasicIterator.preIncrement] at h
      simp at h
      obtain ⟨rfl, _, rfl⟩ := h
      refine ⟨rfl, ?_⟩
      intro b hb _
      rw [List.getElem?_append_left hb]
  | heap a =>
    cases hm : m[a]? with
    | none => simp [linkStep, getNext, hm] at h
    | some o =>
      cases o with
      | none => simp [linkStep, getNext, hm] at h
      | some n =>
        have hlt : a < m.length := (List.getElem?_eq_some.1 hm).1
        cases hc : copy x with
        | none => simp [linkStep, getNext, hm, hc] at h
        | some v =>
          have h1 : (m ++ [some (⟨v, n.next_node⟩ : Node α)])[a]? = some (some n) := by
            rw [List.getElem?_append_left hlt]
            exact hm
          have h2 : ((m ++ [some (⟨v, n.next_node⟩ : Node α)]).set a
              (some ⟨n.value, NodePtr.heap m.length⟩))[a]? =
              some (some ⟨n.value, NodePtr.heap m.length⟩) := by
            rw [List.getElem?_set_self]
            simp
            omega
          simp only [linkStep, getNext, hm, hc, newNode, setNext, h1,
            BasicIterator.preIncrement, h2] at h
          simp at h
          obtain ⟨rfl, _, rfl⟩ := h
          refine ⟨rfl, ?_⟩
          intro b hb hne
          have : a ≠ b := fun e => hne (by rw [e])
          rw [List.getElem?_set_ne this, List.getElem?_append_left hb]

theorem copyLoop_eq_rangeLoop (copy : α → Option α) (other : SingleLinkedList α) :
    ∀ (cs : List (Nat × α)) (fuel : Nat) (it : NodePtr) (m : Heap α)
      (tmp : SingleLinkedList α) (il : BasicIterator),
    Chain m it cs → cs.length < fuel → (∀ c ∈ cs, NodePtr.heap c.1 ≠ il.node_) →
    copyLoop copy other fuel ⟨it⟩ m tmp il = rangeLoop copy (cs.map Prod.snd) m tmp il
  | [], fuel, it, m, tmp, il, h, hf, _ => by
    obtain ⟨f, rfl⟩ : ∃ f, fuel = f + 1 := ⟨fuel - 1, by omega⟩
    have hp : it = NodePtr.null := h
    simp [copyLoop, rangeLoop, hp, BasicIterator.ne, end_]
  | c :: cs, fuel, it, m, tmp, il, h, hf, hne => by
    obtain ⟨f, rfl⟩ : ∃ f, fuel = f + 1 := ⟨fuel - 1, by omega⟩
    have hl := chain_lt h
    obtain ⟨hp, q, hq, hrest⟩ := h
    subst hp
    have hstep_eq : copyLoop copy other (f + 1) ⟨NodePtr.heap c.1⟩ m tmp il =
        match linkStep copy m tmp il c.2 with
        | Except.error e => Except.error e
        | Except.ok none => Except.ok (m, tmp, false)
        | Except.ok (some (m2, tmp2, it2)) =>
          match BasicIterator.preIncrement m2 other ⟨NodePtr.heap c.1⟩ with
          | Except.error e => Except.error e
          | Except.ok it1 => copyLoop copy other f it1 m2 tmp2 it2 := by
      simp [copyLoop, BasicIterator.ne, end_, BasicIterator.deref, getValue, hq]
    rw [hstep_eq, List.map_cons, rangeLoop]
    cases hstep : linkStep copy m tmp il c.2 with
    | error e => rfl
    | ok r =>
      cases r with
      | none => rfl
      | some t =>
        obtain ⟨m2, tmp2, it2⟩ := t
        obtain ⟨hit2, hframe⟩ := linkStep_frame hstep
        have hc2 : m2[c.1]? = some (some ⟨c.2, q⟩) := by
          rw [hframe c.1 (hl c (List.mem_cons_self _ _)) (hne c (List.mem_cons_self _ _))]
          exact hq
        have hch2 : Chain m2 q cs := by
          apply chain_frame hrest
          intro d hd
          exact hframe d.1 (hl d (List.mem_cons_of_mem _ hd)) (hne d (List.mem_cons_of_mem _ hd))
        have hne2 : ∀ d ∈ cs, NodePtr.heap d.1 ≠ it2.node_ := by
          intro d hd e
          rw [hit2] at e
          have := hl d (List.mem_cons_of_mem _ hd)
          injection e with e
          omega
        simp only [BasicIterator.preIncrement, getNext, hc2]
        exact copyLoop_eq_rangeLoop copy other cs f q m2 tmp2 it2 hch2 (by simpa using hf) hne2

theorem CopyCtor_eq_RangeCtor [Inhabited α] (copy : α → Option α) {m : Heap α}
    {other : SingleLinkedList α} {cs : List (Nat × α)} {fuel : Nat}
    (h : Chain m other.head_.next_node cs) (hf : cs.length < fuel) :
    CopyCtor fuel copy m other = RangeCtor fuel copy m (cs.map Prod.snd) := by
  have := copyLoop_eq_rangeLoop copy other cs fuel other.head_.next_node m
    (empty : SingleLinkedList α) ⟨NodePtr.head⟩ h hf (by intro c _ e; cases e)
  simp only [CopyCtor, RangeCtor, begin, this]

theorem operatorAssign_spec [Inhabited α] {m : Heap α} {this rhs : SingleLinkedList α}
    {ca cb : List (Nat × α)} {fuel : Nat} (ha : Chain m this.head_.next_node ca)
    (hb : Chain m rhs.head_.next_node cb) (hfa : ca.length < fuel) (hfb : cb.length < fuel) :
    ∃ m2 p cs, operatorAssign fuel some m this (some rhs) =
        Except.ok (m2, ⟨⟨this.head_.value, p⟩, cb.length % SIZE_MOD⟩, true) ∧
      Chain m2 p cs ∧ cs.map Prod.snd = cb.map Prod.snd ∧
      ∀ b, b < m.length → (∀ c ∈ ca, c.1 ≠ b) → m2[b]? = m[b]? := by
  obtain ⟨m1, L, cs, hrun, hsize, hlen, hframe, hch, hmap, hge⟩ :=
    rangeCtor_spec fuel m (cb.map Prod.snd) (by omega)
  have hla := chain_lt ha
  have ha1 : Chain m1 this.head_.next_node ca :=
    chain_frame ha (fun c hc => hframe c.1 (hla c hc))
  obtain ⟨m2, hclear, _, hframe2⟩ := Clear_chain ca m1 ⟨⟨L.head_.value, this.head_.next_node⟩,
    this.size_⟩ fuel ha1 hfa
  refine ⟨m2, L.head_.next_node, cs, ?_, ?_, hmap, ?_⟩
  · simp only [operatorAssign, CopyCtor_eq_RangeCtor some hb hfb, hrun, swap, hclear, hsize,
      List.length_map]
  · apply chain_frame hch
    intro c hc
    apply hframe2
    intro d hd e
    have h1 := hla d hd
    have h2 := hge c hc
    omega
  · intro b hb hnot
    rw [hframe2 b hnot, hframe b hb]

/-! ## Positions, elements and the size invariant -/

theorem position_split {m : Heap α} {L : SingleLinkedList α} {cs : List (Nat × α)}
    {pos : BasicIterator} {k : Nat} (h : Chain m L.head_.next_node cs) (hk : k < cs.length)
    (hpos : advance m L (k + 1) (before_begin L) = Except.ok pos) :
    ∃ pre c post, cs = pre ++ c :: post ∧ pre.length = k ∧ pos = ⟨NodePtr.heap c.1⟩ := by
  rw [advance_before_begin L h k (Nat.le_of_lt hk)] at hpos
  have hd : cs.drop k = cs[k] :: cs.drop (k + 1) := List.drop_eq_getElem_cons hk
  refine ⟨cs.take k, cs[k], cs.drop (k + 1), ?_, ?_, ?_⟩
  · rw [← hd, List.take_append_drop]
  · rw [List.length_take]
    omega
  · rw [hd] at hpos
    injection hpos with e
    exact e.symm

theorem sizeInv_chain {m : Heap α} {L : SingleLinkedList α} (h : SizeInvariant m L) :
    ∃ cs, Chain m L.head_.next_node cs ∧ L.size_ = cs.length := by
  obtain ⟨xs, hel, hs⟩ := h
  obtain ⟨cs, hch, hmap⟩ := chain_of_elements hel
  refine ⟨cs, hch, ?_⟩
  rw [hs, ← hmap, List.length_map]

theorem sizeInv_of_chain {m : Heap α} {L : SingleLinkedList α} {cs : List (Nat × α)}
    (h : Chain m L.head_.next_node cs) (hs : L.size_ = cs.length) : SizeInvariant m L :=
  ⟨cs.map Prod.snd, elements_of_chain h, by rw [hs, List.length_map]⟩

theorem InsertAfter_at {m : Heap α} {L : SingleLinkedList α} {cs : List (Nat × α)}
    {pos : BasicIterator} {j : Nat} (v : α) (h : Chain m L.head_.next_node cs)
    (hj : j ≤ cs.length) (hpos : advance m L j (before_begin L) = Except.ok pos) :
    ∃ m1 L1, InsertAfter m L pos v = Except.ok (m1, L1, ⟨NodePtr.heap m.length⟩) ∧
      L1.size_ = (L.size_ + 1) % SIZE_MOD ∧
      Chain m1 L1.head_.next_node (cs.take j ++ (m.length, v) :: cs.drop j) ∧
      m1[m.length]? = some (some ⟨v, headPtr (cs.drop j)⟩) ∧
      pos.preIncrement m1 L1 = Except.ok ⟨NodePtr.heap m.length⟩ := by
  cases j with
  | zero =>
    simp only [advance] at hpos
    injection hpos with e
    subst e
    refine ⟨(PushFront m L v).1, (PushFront m L v).2, ?_, rfl, PushFront_chain v h, ?_, rfl⟩
    · rw [InsertAfter_head]
      rfl
    · rw [List.drop_zero, ← chain_headPtr h]
      simp [PushFront, newNode]
  | succ k =>
    obtain ⟨pre, c, post, hcs, hpre, rfl⟩ := position_split h (by omega) hpos
    subst hcs
    have htake : (pre ++ c :: post).take (k + 1) = pre ++ [c] := by
      rw [← hpre]
      simp [List.take_append]
    have hdrop : (pre ++ c :: post).drop (k + 1) = post := by
      rw [← hpre]
      simp [List.drop_append]
    have hc := (chain_cell pre h).1
    have hlt : c.1 < m.length := (List.getElem?_eq_some.1 hc).1
    refine ⟨_, _, InsertAfter_node L v h, rfl, ?_, ?_, ?_⟩
    · rw [htake, hdrop, List.append_assoc]
      exact chain_insert v pre h
    · rw [hdrop, List.getElem?_set_ne (by omega)]
      simp
    · simp only [BasicIterator.preIncrement, getNext]
      rw [List.getElem?_set_self (by simp; omega)]

theorem EraseAfter_at {m : Heap α} {L : SingleLinkedList α} {cs : List (Nat × α)}
    {pos : BasicIterator} {j : Nat} (h : Chain m L.head_.next_node cs)
    (hj : j < cs.length) (hpos : advance m L j (before_begin L) = Except.ok pos) :
    ∃ m1 L1, EraseAfter m L pos = Except.ok (m1, L1, ⟨headPtr (cs.drop (j + 1))⟩) ∧
      L1.size_ = (SIZE_MOD - 1 + L.size_) % SIZE_MOD ∧
      L1.head_.value = L.head_.value ∧
      Chain m1 L1.head_.next_node (cs.eraseIdx j) ∧
      pos.preIncrement m1 L1 = Except.ok ⟨headPtr (cs.drop (j + 1))⟩ := by
  cases j with
  | zero =>
    simp only [advance] at hpos
    injection hpos with e
    subst e
    cases cs with
    | nil => simp at hj
    | cons c post =>
      exact ⟨_, _, EraseAfter_head h, rfl, rfl, chain_pop h, rfl⟩
  | succ k =>
    obtain ⟨pre, c, post, hcs, hpre, rfl⟩ := position_split h (by omega) hpos
    subst hcs
    cases post with
    | nil =>
      simp at hj
      omega
    | cons d post =>
      have hdrop : (pre ++ c :: d :: post).drop (k + 1 + 1) = post := by
        rw [← hpre]
        have : pre ++ c :: d :: post = (pre ++ [c, d]) ++ post := by simp
        rw [this, List.drop_left' (by simp)]
      have herase : (pre ++ c :: d :: post).eraseIdx (k + 1) = pre ++ c :: post := by
        rw [← hpre]
        have : pre ++ c :: d :: post = (pre ++ [c]) ++ d :: post := by simp
        rw [this, List.eraseIdx_append_of_length_le (by simp)]
        simp
      have hc := (chain_cell pre h).1
      have hlt : c.1 < m.length := (List.getElem?_eq_some.1 hc).1
      have hne : c.1 ≠ d.1 := by
        have h3 := chain_suffix pre h
        exact Ne.symm (chain_head_not_mem h3 d (List.mem_cons_self _ _))
      rw [hdrop, herase]
      refine ⟨_, _, EraseAfter_node h, rfl, rfl, chain_erase pre h, ?_⟩
      simp only [BasicIterator.preIncrement, getNext]
      rw [List.getElem?_set_ne (Ne.symm hne), List.getElem?_set_self hlt]

/-- C2. The predicate `SizeInvariant` (`size_` is the number of real nodes reachable from
`head_.next_node`) holds for the empty list and is preserved by `PushFront`, `PopFront`,
`InsertAfter` (at `before_begin()` or a node of the list: the position `j` steps after
`before_begin()`), `EraseAfter` (at a position that has a successor; on the empty list at
any position: a non-null one returns with nothing changed, a null one stops at the
`assert`), `Clear`, `swap` (both lists), range construction and copy assignment; each of
these operations returns. `size_` is a `size_t`: it is below `SIZE_MOD`, and an operation
that adds a node needs the new count to be below `SIZE_MOD` as well. -/
theorem C2_size_invariant_preserved [Inhabited α] :
    (∀ m : Heap α, SizeInvariant m (empty : SingleLinkedList α)) ∧
    (∀ (m : Heap α) (L : SingleLinkedList α) (v : α), SizeInvariant m L →
      L.size_ + 1 < SIZE_MOD → SizeInvariant (PushFront m L v).1 (PushFront m L v).2) ∧
    (∀ (m : Heap α) (L : SingleLinkedList α), SizeInvariant m L → L.size_ < SIZE_MOD →
      ∃ m1 L1, PopFront m L = Except.ok (m1, L1) ∧ SizeInvariant m1 L1) ∧
    (∀ (m : Heap α) (L : SingleLinkedList α) (pos : BasicIterator) (v : α) (j : Nat),
      SizeInvariant m L → L.size_ + 1 < SIZE_MOD → j ≤ L.size_ →
      advance m L j (before_begin L) = Except.ok pos →
      ∃ m1 L1 r, InsertAfter m L pos v = Except.ok (m1, L1, r) ∧ SizeInvariant m1 L1) ∧
    (∀ (m : Heap α) (L : SingleLinkedList α) (pos : BasicIterator) (j : Nat),
      SizeInvariant m L → L.size_ < SIZE_MOD → j < L.size_ →
      advance m L j (before_begin L) = Except.ok pos →
      ∃ m1 L1 r, EraseAfter m L pos = Except.ok (m1, L1, r) ∧ SizeInvariant m1 L1) ∧
    (∀ (m : Heap α) (L : SingleLinkedList α) (pos : BasicIterator),
      SizeInvariant m L → L.size_ = 0 →
      (pos.node_ ≠ NodePtr.null → EraseAfter m L pos = Except.ok (m, L, end_ L)) ∧
      (pos.node_ = NodePtr.null → EraseAfter m L pos = Except.error Fault.assert_failed)) ∧
    (∀ (m : Heap α) (L : SingleLinkedList α) (fuel : Nat), SizeInvariant m L →
      L.size_ < fuel → ∃ m1 L1, Clear fuel m L = Except.ok (m1, L1) ∧ SizeInvariant m1 L1) ∧
    (∀ (m : Heap α) (a b : SingleLinkedList α), SizeInvariant m a → SizeInvariant m b →
      SizeInvariant m (swap a b).1 ∧ SizeInvariant m (swap a b).2) ∧
    (∀ (m : Heap α) (S : List α) (fuel : Nat), 0 < fuel → S.length < SIZE_MOD →
      ∃ m1 L, RangeCtor fuel some m S = Except.ok (m1, some L) ∧ SizeInvariant m1 L) ∧
    (∀ (m : Heap α) (a b : SingleLinkedList α) (fuel : Nat), SizeInvariant m a →
      SizeInvariant m b → b.size_ < SIZE_MOD → a.size_ < fuel → b.size_ < fuel →
      ∃ m1 a1, operatorAssign fuel some m a (some b) = Except.ok (m1, a1, true) ∧
        SizeInvariant m1 a1) ∧
    (∀ (m : Heap α) (a : SingleLinkedList α) (fuel : Nat), SizeInvariant m a →
      operatorAssign fuel some m a none = Except.ok (m, a, true) ∧ SizeInvariant m a) := by
  refine ⟨?_, ?_, ?_, ?_, ?_, ?_, ?_, ?_, ?_, ?_, ?_⟩
  · intro m
    exact @sizeInv_of_chain _ m empty [] rfl rfl
  · intro m L v h hs
    obtain ⟨cs, hch, hsz⟩ := sizeInv_chain h
    apply sizeInv_of_chain (PushFront_chain v hch)
    simp only [PushFront, List.length_cons]
    rw [Nat.mod_eq_of_lt hs, hsz]
  · intro m L h hs
    obtain ⟨cs, hch, hsz⟩ := sizeInv_chain h
    cases cs with
    | nil => exact ⟨m, L, PopFront_nil hch, h⟩
    | cons c post =>
      refine ⟨_, _, PopFront_cons hch, sizeInv_of_chain (chain_pop hch) ?_⟩
      have := @dec_mod L.size_ (by rw [hsz]; simp) hs
      simp only [List.length_cons] at hsz
      show (SIZE_MOD - 1 + L.size_) % SIZE_MOD = post.length
      omega
  · intro m L pos v j h hs hj hpos
    obtain ⟨cs, hch, hsz⟩ := sizeInv_chain h
    obtain ⟨m1, L1, hrun, hsize, hch1, _, _⟩ := InsertAfter_at v hch (by omega) hpos
    refine ⟨m1, L1, _, hrun, sizeInv_of_chain hch1 ?_⟩
    rw [hsize, Nat.mod_eq_of_lt hs]
    simp
    omega
  · intro m L pos j h hs hj hpos
    obtain ⟨cs, hch, hsz⟩ := sizeInv_chain h
    obtain ⟨m1, L1, hrun, hsize, _, hch1, _⟩ := EraseAfter_at hch (by omega) hpos
    refine ⟨m1, L1, _, hrun, sizeInv_of_chain hch1 ?_⟩
    have := @dec_mod L.size_ (by omega) hs
    rw [hsize, List.length_eraseIdx]
    rw [if_pos (by omega)]
    omega
  · intro m L pos h hs
    obtain ⟨cs, hch, hsz⟩ := sizeInv_chain h
    have hnil : cs = [] := List.length_eq_zero.1 (by omega)
    subst hnil
    constructor
    · intro hp
      exact EraseAfter_nil hch hp
    · intro hp
      simp [EraseAfter, hp]
  · intro m L fuel h hf
    obtain ⟨cs, hch, hsz⟩ := sizeInv_chain h
    obtain ⟨m1, hrun, _, _⟩ := Clear_chain cs m L fuel hch (by omega)
    exact ⟨m1, _, hrun, @sizeInv_of_chain _ m1 _ [] rfl rfl⟩
  · intro m a b ha hb
    obtain ⟨ca, hca, hsa⟩ := sizeInv_chain ha
    obtain ⟨cb, hcb, hsb⟩ := sizeInv_chain hb
    exact ⟨@sizeInv_of_chain _ m _ cb hcb hsb, @sizeInv_of_chain _ m _ ca hca hsa⟩
  · intro m S fuel hf hl
    obtain ⟨m1, L, cs, hrun, hsize, _, _, hch, hmap, _⟩ := rangeCtor_spec fuel m S hf
    refine ⟨m1, L, hrun, sizeInv_of_chain hch ?_⟩
    rw [hsize, Nat.mod_eq_of_lt hl, ← hmap, List.length_map]
  · intro m a b fuel ha hb hbs hfa hfb
    obtain ⟨ca, hca, hsa⟩ := sizeInv_chain ha
    obtain ⟨cb, hcb, hsb⟩ := sizeInv_chain hb
    obtain ⟨m2, p, cs, hrun, hch, hmap, _⟩ :=
      @operatorAssign_spec _ _ m a b ca cb fuel hca hcb (by omega) (by omega)
    refine ⟨m2, _, hrun,
      @sizeInv_of_chain _ m2 ⟨⟨a.head_.value, p⟩, cb.length % SIZE_MOD⟩ cs hch ?_⟩
    have hl : cs.length = cb.length := by
      have := congrArg List.length hmap
      simpa using this
    show cb.length % SIZE_MOD = cs.length
    rw [hl, Nat.mod_eq_of_lt (by omega)]
  · intro m a fuel ha
    exact ⟨rfl, ha⟩

theorem demo_elements : Elements demoHeap demoList [1, 2] := ⟨3, by decide⟩

theorem demo_invariant : SizeInvariant demoHeap demoList := ⟨[1, 2], demo_elements, rfl⟩

theorem demo_empty_invariant : SizeInvariant demoHeap demoEmpty :=
  ⟨[], ⟨1, by decide⟩, rfl⟩

/-- C2 at the list `[1, 2]` (and at the empty list) in a two-node free store. -/
theorem C2_witness :
    SizeInvariant (PushFront demoHeap demoList 7).1 (PushFront demoHeap demoList 7).2 ∧
    (∃ m1 L1, PopFront demoHeap demoList = Except.ok (m1, L1) ∧ SizeInvariant m1 L1) ∧
    (∃ m1 L1 r, InsertAfter demoHeap demoList ⟨NodePtr.heap 0⟩ 9 = Except.ok (m1, L1, r) ∧
      SizeInvariant m1 L1) ∧
    (∃ m1 L1 r, EraseAfter demoHeap demoList ⟨NodePtr.heap 0⟩ = Except.ok (m1, L1, r) ∧
      SizeInvariant m1 L1) ∧
    EraseAfter demoHeap demoEmpty (before_begin demoEmpty) =
      Except.ok (demoHeap, demoEmpty, end_ demoEmpty) ∧
    (∃ m1 L1, Clear 3 demoHeap demoList = Except.ok (m1, L1) ∧ SizeInvariant m1 L1) ∧
    (SizeInvariant demoHeap (swap demoList demoEmpty).1 ∧
      SizeInvariant demoHeap (swap demoList demoEmpty).2) ∧
    (∃ m1 L, RangeCtor 1 some demoHeap [4, 5, 6] = Except.ok (m1, some L) ∧
      SizeInvariant m1 L) ∧
    (∃ m1 a1, operatorAssign 3 some demoHeap demoEmpty (some demoList) = Except.ok (m1, a1, true) ∧
      SizeInvariant m1 a1) :=
  ⟨(@C2_size_invariant_preserved Nat _).2.1 demoHeap demoList 7 demo_invariant (by decide),
   (@C2_size_invariant_preserved Nat _).2.2.1 demoHeap demoList demo_invariant (by decide),
   (@C2_size_invariant_preserved Nat _).2.2.2.1 demoHeap demoList ⟨NodePtr.heap 0⟩ 9 1 demo_invariant
     (by decide) (by decide) (by decide),
   (@C2_size_invariant_preserved Nat _).2.2.2.2.1 demoHeap demoList ⟨NodePtr.heap 0⟩ 1 demo_invariant
     (by decide) (by decide) (by decide),
   ((@C2_size_invariant_preserved Nat _).2.2.2.2.2.1 demoHeap demoEmpty (before_begin demoEmpty)
     demo_empty_invariant rfl).1 (by decide),
   (@C2_size_invariant_preserved Nat _).2.2.2.2.2.2.1 demoHeap demoList 3 demo_invariant (by decide),
   (@C2_size_invariant_preserved Nat _).2.2.2.2.2.2.2.1 demoHeap demoList demoEmpty demo_invariant
     demo_empty_invariant,
   (@C2_size_invariant_preserved Nat _).2.2.2.2.2.2.2.2.1 demoHeap [4, 5, 6] 1 (by decide) (by decide),
   (@C2_size_invariant_preserved Nat _).2.2.2.2.2.2.2.2.2.1 demoHeap demoEmpty demoList 3
     demo_empty_invariant demo_invariant (by decide) (by decide) (by decide)⟩

/-- C3. For every list `L` (with elements `xs`, empty or not) and every value `v`,
`PushFront(v)` followed by `PopFront()` returns and leaves the list object as it was
(`head_.next_node` and `size_` included), with the same element sequence `xs`, the same
`GetSize()`, and every cell of the former free store untouched. -/
theorem C3_push_front_pop_front_roundtrip (m : Heap α) (L : SingleLinkedList α)
    (xs : List α) (v : α) (hel : Elements m L xs) (hsize : L.size_ < SIZE_MOD) :
    ∃ m1 L1, PopFront (PushFront m L v).1 (PushFront m L v).2 = Except.ok (m1, L1) ∧
      Elements m1 L1 xs ∧ GetSize L1 = GetSize L ∧ L1 = L ∧
      ∀ b, b < m.length → m1[b]? = m[b]? := by
  obtain ⟨cs, hch, hmap⟩ := chain_of_elements hel
  have hpush := PushFront_chain v hch
  have hpop := PopFront_cons hpush
  have hL : (⟨⟨(PushFront m L v).2.head_.value, headPtr cs⟩,
      (SIZE_MOD - 1 + (PushFront m L v).2.size_) % SIZE_MOD⟩ : SingleLinkedList α) = L := by
    have h1 : headPtr cs = L.head_.next_node := (chain_headPtr hch).symm
    have h2 : (SIZE_MOD - 1 + (PushFront m L v).2.size_) % SIZE_MOD = L.size_ :=
      dec_inc_mod hsize
    rw [h1, h2]
    rfl
  rw [hL] at hpop
  refine ⟨_, L, hpop, ?_, rfl, rfl, ?_⟩
  · have hc := chain_pop hpush
    rw [← chain_headPtr hch] at hc
    have := elements_of_chain hc
    rw [hmap] at this
    exact this
  · intro b hb
    simp only [PushFront, newNode]
    rw [List.getElem?_set_ne (by omega), List.getElem?_append_left hb]

/-- C3 at the list `[1, 2]` and the value `7`. -/
theorem C3_witness :
    ∃ (m1 : Heap Nat) (L1 : SingleLinkedList Nat),
      PopFront (PushFront demoHeap demoList 7).1 (PushFront demoHeap demoList 7).2 =
        Except.ok (m1, L1) ∧
      Elements m1 L1 [1, 2] ∧ GetSize L1 = GetSize demoList ∧ L1 = demoList ∧
      ∀ b, b < demoHeap.length → m1[b]? = demoHeap[b]? :=
  C3_push_front_pop_front_roundtrip demoHeap demoList [1, 2] 7 demo_elements (by decide)

theorem advance_succ_before_begin (m : Heap α) (L : SingleLinkedList α) (k : Nat) :
    advance m L (k + 1) (before_begin L) = advance m L k (begin L) := by
  simp [advance, before_begin, begin, BasicIterator.preIncrement, getNext]

/-- C4. For every list `L` with elements `xs`, every dereferenceable position `p` (the
`k`-th real node, `k < |xs|`, the last one included) and every value `v`:
`InsertAfter(p, v)` and then `EraseAfter(p)` both return, the list object is as it was in
`L` (same `head_`, same `size_`), its element sequence is `xs` again, every cell of the
former free store is as before, and the iterator returned by `EraseAfter` is the one that
followed `p` in `L` (what `++p` gave there), which is `end()` when `p` was the last node. -/
theorem C4_insert_after_erase_after_roundtrip (m : Heap α) (L : SingleLinkedList α)
    (xs : List α) (p : BasicIterator) (k : Nat) (v : α) (hel : Elements m L xs)
    (hsize : L.size_ < SIZE_MOD) (hk : k < xs.length)
    (hp : advance m L k (begin L) = Except.ok p) :
    ∃ m1 L1 r1 m2 L2 r2, InsertAfter m L p v = Except.ok (m1, L1, r1) ∧
      EraseAfter m1 L1 p = Except.ok (m2, L2, r2) ∧
      Elements m2 L2 xs ∧ GetSize L2 = GetSize L ∧ L2 = L ∧
      (∀ b, b < m.length → m2[b]? = m[b]?) ∧
      p.preIncrement m L = Except.ok r2 ∧ (k + 1 = xs.length → r2 = end_ L) := by
  obtain ⟨cs, hch, hmap⟩ := chain_of_elements hel
  have hlen : cs.length = xs.length := by rw [← hmap, List.length_map]
  rw [← advance_succ_before_begin] at hp
  obtain ⟨pre, c, post, hcs, hpre, rfl⟩ := position_split hch (by omega) hp
  subst hcs
  have hc := (chain_cell pre hch).1
  have hlt : c.1 < m.length := (List.getElem?_eq_some.1 hc).1
  have hins := InsertAfter_node L v hch
  have hch1 : Chain ((m ++ [some (⟨v, headPtr post⟩ : Node α)]).set c.1
      (some ⟨c.2, NodePtr.heap m.length⟩))
      (⟨L.head_, (L.size_ + 1) % SIZE_MOD⟩ : SingleLinkedList α).head_.next_node
      (pre ++ c :: (m.length, v) :: post) := chain_insert v pre hch
  have hers := EraseAfter_node hch1
  have hch2 := chain_erase pre hch1
  simp only [dec_inc_mod hsize] at hers
  refine ⟨_, _, _, _, _, _, hins, hers, ?_, rfl, rfl, ?_, ?_, ?_⟩
  · have hch3 : Chain _ L.head_.next_node (pre ++ c :: post) := hch2
    have := @elements_of_chain _ _ ⟨L.head_, L.size_⟩ _ hch3
    rw [hmap] at this
    exact this
  · intro b hb
    rw [List.getElem?_set_ne (by omega)]
    by_cases hbc : c.1 = b
    · subst hbc
      rw [List.getElem?_set_self (by simp; omega), hc]
    · rw [List.getElem?_set_ne hbc, List.getElem?_set_ne hbc, List.getElem?_append_left hb]
  · simp only [BasicIterator.preIncrement, getNext, hc]
  · intro hlast
    have : post = [] := by
      apply List.length_eq_zero.1
      simp at hlen
      omega
    subst this
    rfl

/-- C4 at the list `[1, 2]`, its last node (`k = 1`) and the value `9`. -/
theorem C4_witness :
    ∃ (m1 : Heap Nat) (L1 : SingleLinkedList Nat) (r1 : BasicIterator) (m2 : Heap Nat)
      (L2 : SingleLinkedList Nat) (r2 : BasicIterator),
      InsertAfter demoHeap demoList ⟨NodePtr.heap 1⟩ 9 = Except.ok (m1, L1, r1) ∧
      EraseAfter m1 L1 ⟨NodePtr.heap 1⟩ = Except.ok (m2, L2, r2) ∧
      Elements m2 L2 [1, 2] ∧ GetSize L2 = GetSize demoList ∧ L2 = demoList ∧
      (∀ b, b < demoHeap.length → m2[b]? = demoHeap[b]?) ∧
      BasicIterator.preIncrement demoHeap demoList ⟨NodePtr.heap 1⟩ = Except.ok r2 ∧
      (1 + 1 = [1, 2].length → r2 = end_ demoList) :=
  C4_insert_after_erase_after_roundtrip demoHeap demoList [1, 2] ⟨NodePtr.heap 1⟩ 1 9
    demo_elements (by decide) (by decide) (by decide)

theorem map_snd_eraseIdx : ∀ (cs : List (Nat × α)) (j : Nat),
    (cs.eraseIdx j).map Prod.snd = (cs.map Prod.snd).eraseIdx j
  | [], _ => rfl
  | _ :: _, 0 => rfl
  | c :: cs, j + 1 => by
    simp only [List.eraseIdx, List.map_cons, map_snd_eraseIdx cs j]

theorem scenario_trace :
    PushFront (PushFront (PushFront ([] : Heap Nat) ⟨⟨0, NodePtr.null⟩, 0⟩ 3).1
      (PushFront ([] : Heap Nat) ⟨⟨0, NodePtr.null⟩, 0⟩ 3).2 2).1
      (PushFront (PushFront ([] : Heap Nat) ⟨⟨0, NodePtr.null⟩, 0⟩ 3).1
      (PushFront ([] : Heap Nat) ⟨⟨0, NodePtr.null⟩, 0⟩ 3).2 2).2 1 =
      (scenarioHeap, scenarioList) ∧
    EraseAfter scenarioHeap scenarioList (before_begin scenarioList) =
      Except.ok (scenarioHeap2, scenarioList2, begin scenarioList2) := by
  decide

theorem scenario_elements : Elements scenarioHeap scenarioList [1, 2, 3] := ⟨4, by decide⟩

theorem scenario_elements2 : Elements scenarioHeap2 scenarioList2 [2, 3] := ⟨3, by decide⟩

/-- C5. For every list `L` (elements `xs`) and value `v`, `InsertAfter(before_begin(), v)`
produces exactly the free store and the list object that `PushFront(v)` produces, and
returns `begin()` of that list; its elements are `v` followed by `xs`, and `GetSize()` has
grown by one (the new count being a `size_t` value). -/
theorem C5_insert_after_before_begin_is_push_front (m : Heap α) (L : SingleLinkedList α)
    (xs : List α) (v : α) (hel : Elements m L xs) (hsize : L.size_ + 1 < SIZE_MOD) :
    InsertAfter m L (before_begin L) v =
      Except.ok ((PushFront m L v).1, (PushFront m L v).2, begin (PushFront m L v).2) ∧
    Elements (PushFront m L v).1 (PushFront m L v).2 (v :: xs) ∧
    GetSize (PushFront m L v).2 = GetSize L + 1 := by
  obtain ⟨cs, hch, hmap⟩ := chain_of_elements hel
  refine ⟨InsertAfter_head m L v, ?_, ?_⟩
  · have := elements_of_chain (PushFront_chain v hch)
    rw [List.map_cons, hmap] at this
    exact this
  · show (L.size_ + 1) % SIZE_MOD = L.size_ + 1
    exact Nat.mod_eq_of_lt hsize

/-- C5 at the list `[1, 2]` and the value `7`. -/
theorem C5_witness :
    InsertAfter demoHeap demoList (before_begin demoList) 7 =
      Except.ok ((PushFront demoHeap demoList 7).1, (PushFront demoHeap demoList 7).2,
        begin (PushFront demoHeap demoList 7).2) ∧
    Elements (PushFront demoHeap demoList 7).1 (PushFront demoHeap demoList 7).2 [7, 1, 2] ∧
    GetSize (PushFront demoHeap demoList 7).2 = GetSize demoList + 1 :=
  C5_insert_after_before_begin_is_push_front demoHeap demoList [1, 2] 7 demo_elements
    (by decide)

/-- C6. For every list with elements `xs`, every position `p` that is `before_begin()`
(`j = 0`) or the `k`-th real node (`j = k + 1`), that is the position `j ≤ |xs|` steps after
`before_begin()`, and every value `v`: `InsertAfter(p, v)` returns, the elements are then
the first `j` of `xs`, `v`, and the rest of `xs`; `GetSize()` has grown by exactly one (the
new count being a `size_t` value); the returned iterator dereferences to `v` and is what
`++p` gives in the new list. -/
theorem C6_insert_after_splices_value (m : Heap α) (L : SingleLinkedList α) (xs : List α)
    (p : BasicIterator) (j : Nat) (v : α) (hel : Elements m L xs)
    (hsize : L.size_ + 1 < SIZE_MOD) (hj : j ≤ xs.length)
    (hp : advance m L j (before_begin L) = Except.ok p) :
    ∃ m1 L1 r, InsertAfter m L p v = Except.ok (m1, L1, r) ∧
      Elements m1 L1 (xs.take j ++ v :: xs.drop j) ∧
      GetSize L1 = GetSize L + 1 ∧
      r.deref m1 L1 = Except.ok v ∧ p.preIncrement m1 L1 = Except.ok r := by
  obtain ⟨cs, hch, hmap⟩ := chain_of_elements hel
  have hlen : cs.length = xs.length := by rw [← hmap, List.length_map]
  obtain ⟨m1, L1, hrun, hsz, hch1, hcell, hnext⟩ := InsertAfter_at v hch (by omega) hp
  refine ⟨m1, L1, _, hrun, ?_, ?_, ?_, hnext⟩
  · have := elements_of_chain hch1
    rw [List.map_append, List.map_cons, List.map_take, List.map_drop, hmap] at this
    exact this
  · show L1.size_ = L.size_ + 1
    rw [hsz, Nat.mod_eq_of_lt hsize]
  · simp [BasicIterator.deref, getValue, hcell]

/-- C6 on the list `[2, 3]`: `InsertAfter(begin(), 9)` gives `[2, 9, 3]` with size 3. -/
theorem C6_witness :
    ∃ (m1 : Heap Nat) (L1 : SingleLinkedList Nat) (r : BasicIterator),
      InsertAfter scenarioHeap2 scenarioList2 (begin scenarioList2) 9 =
        Except.ok (m1, L1, r) ∧
      Elements m1 L1 [2, 9, 3] ∧ GetSize L1 = 3 ∧
      r.deref m1 L1 = Except.ok 9 ∧
      BasicIterator.preIncrement m1 L1 (begin scenarioList2) = Except.ok r :=
  C6_insert_after_splices_value scenarioHeap2 scenarioList2 [2, 3] (begin scenarioList2) 1 9
    scenario_elements2 (by decide) (by decide) (by decide)

/-- C7. For every list with elements `xs` (and `size_ = |xs|`) and every position `p` that
has a successor (`j < |xs|` steps after `before_begin()`: `before_begin()` itself for
`j = 0`, else the real node number `j - 1`): `EraseAfter(p)` returns, the elements are then
`xs` without the element of index `j`, `GetSize()` has decreased by exactly one, and the
returned iterator is the position that followed the removed node in the old list (`j + 2`
steps after `before_begin()`), which is what `++p` gives in the new list and is `end()`
when the removed node was the last. -/
theorem C7_erase_after_removes_successor (m : Heap α) (L : SingleLinkedList α) (xs : List α)
    (p : BasicIterator) (j : Nat) (hel : Elements m L xs) (hinv : L.size_ = xs.length)
    (hsize : L.size_ < SIZE_MOD) (hj : j < xs.length)
    (hp : advance m L j (before_begin L) = Except.ok p) :
    ∃ m1 L1 r, EraseAfter m L p = Except.ok (m1, L1, r) ∧
      Elements m1 L1 (xs.eraseIdx j) ∧
      GetSize L1 + 1 = GetSize L ∧
      advance m L (j + 2) (before_begin L) = Except.ok r ∧
      p.preIncrement m1 L1 = Except.ok r ∧
      (j + 1 = xs.length → r = end_ L) := by
  obtain ⟨cs, hch, hmap⟩ := chain_of_elements hel
  have hlen : cs.length = xs.length := by rw [← hmap, List.length_map]
  obtain ⟨m1, L1, hrun, hsz, _, hch1, hnext⟩ := EraseAfter_at hch (by omega) hp
  refine ⟨m1, L1, _, hrun, ?_, ?_, ?_, hnext, ?_⟩
  · have := elements_of_chain hch1
    rw [← hmap]
    have he := map_snd_eraseIdx cs j
    rw [← he]
    exact this
  · show L1.size_ + 1 = L.size_
    rw [hsz]
    exact dec_mod (by omega) hsize
  · exact advance_before_begin L hch (j + 1) (by omega)
  · intro hlast
    have : cs.drop (j + 1) = [] := List.drop_eq_nil_of_le (by omega)
    rw [this]
    rfl

/-- C7 on the list `[1, 2, 3]`: `EraseAfter(before_begin())` gives `[2, 3]` with size 2. -/
theorem C7_witness :
    ∃ (m1 : Heap Nat) (L1 : SingleLinkedList Nat) (r : BasicIterator),
      EraseAfter scenarioHeap scenarioList (before_begin scenarioList) =
        Except.ok (m1, L1, r) ∧
      Elements m1 L1 [2, 3] ∧ GetSize L1 + 1 = 3 ∧
      advance scenarioHeap scenarioList (0 + 2) (before_begin scenarioList) = Except.ok r ∧
      BasicIterator.preIncrement m1 L1 (before_begin scenarioList) = Except.ok r ∧
      (0 + 1 = 3 → r = end_ scenarioList) :=
  C7_erase_after_removes_successor scenarioHeap scenarioList [1, 2, 3]
    (before_begin scenarioList) 0 scenario_elements (by decide) (by decide) (by decide)
    (by decide)

theorem elements_nil {m : Heap α} {L : SingleLinkedList α} (h : Elements m L []) :
    L.head_.next_node = NodePtr.null := by
  obtain ⟨cs, hch, hmap⟩ := chain_of_elements h
  have : cs = [] := List.map_eq_nil_iff.1 hmap
  subst this
  exact hch

/-- C8. For the empty list (its traversal yields nothing, `size_` is 0),
`EraseAfter(before_begin())` returns an iterator equal to `end()` and changes nothing: the
free store and the list object are the same, so the list is still empty and `GetSize()` is
still 0. -/
theorem C8_erase_after_on_empty_list (m : Heap α) (L : SingleLinkedList α)
    (hel : Elements m L []) (hsize : L.size_ = 0) :
    ∃ r, EraseAfter m L (before_begin L) = Except.ok (m, L, r) ∧
      r.eq (end_ L) = true ∧ Elements m L [] ∧ GetSize L = 0 ∧ IsEmpty L = true := by
  refine ⟨⟨NodePtr.null⟩, EraseAfter_nil (elements_nil hel) ?_, rfl, hel, hsize, ?_⟩
  · intro h
    cases h
  · simp [IsEmpty, hsize]

/-- C8 at the empty list of naturals. -/
theorem C8_witness :
    ∃ (r : BasicIterator), EraseAfter demoHeap demoEmpty (before_begin demoEmpty) =
        Except.ok (demoHeap, demoEmpty, r) ∧
      r.eq (end_ demoEmpty) = true ∧ Elements demoHeap demoEmpty [] ∧
      GetSize demoEmpty = 0 ∧ IsEmpty demoEmpty = true :=
  C8_erase_after_on_empty_list demoHeap demoEmpty ⟨1, by decide⟩ rfl

/-- C9. `PopFront()` on the empty list returns with the free store and the list object
unchanged (so it stays empty and a `GetSize()` of 0 stays 0); on a list with elements
`x :: xs` (and `size_ = |xs| + 1`, a `size_t` value) it returns, leaves exactly `xs` in
order, and `GetSize()` has decreased by exactly one. -/
theorem C9_pop_front (m : Heap α) (L : SingleLinkedList α) :
    (Elements m L [] → PopFront m L = Except.ok (m, L)) ∧
    (∀ (x : α) (xs : List α), Elements m L (x :: xs) → L.size_ = xs.length + 1 →
      L.size_ < SIZE_MOD →
      ∃ m1 L1, PopFront m L = Except.ok (m1, L1) ∧ Elements m1 L1 xs ∧
        GetSize L1 + 1 = GetSize L ∧ GetSize L1 = xs.length) := by
  constructor
  · intro hel
    exact PopFront_nil (elements_nil hel)
  · intro x xs hel hinv hsize
    obtain ⟨cs, hch, hmap⟩ := chain_of_elements hel
    cases cs with
    | nil => simp at hmap
    | cons c post =>
      simp only [List.map_cons, List.cons.injEq] at hmap
      have hpop := chain_pop hch
      have hd := @dec_mod L.size_ (by omega) hsize
      have hel1 : Elements (m.set c.1 none) (⟨⟨L.head_.value, headPtr post⟩,
          (SIZE_MOD - 1 + L.size_) % SIZE_MOD⟩ : SingleLinkedList α) xs := by
        have := @elements_of_chain _ (m.set c.1 none) ⟨⟨L.head_.value, headPtr post⟩,
          (SIZE_MOD - 1 + L.size_) % SIZE_MOD⟩ post hpop
        rw [hmap.2] at this
        exact this
      have hg1 : GetSize (⟨⟨L.head_.value, headPtr post⟩,
          (SIZE_MOD - 1 + L.size_) % SIZE_MOD⟩ : SingleLinkedList α) + 1 = GetSize L := by
        simp only [GetSize]
        exact hd
      have hg2 : GetSize (⟨⟨L.head_.value, headPtr post⟩,
          (SIZE_MOD - 1 + L.size_) % SIZE_MOD⟩ : SingleLinkedList α) = xs.length := by
        simp only [GetSize]
        omega
      exact ⟨_, _, PopFront_cons hch, hel1, hg1, hg2⟩

/-- C9 at the empty list and at the list `[1, 2]`. -/
theorem C9_witness :
    PopFront demoHeap demoEmpty = Except.ok (demoHeap, demoEmpty) ∧
    ∃ (m1 : Heap Nat) (L1 : SingleLinkedList Nat),
      PopFront demoHeap demoList = Except.ok (m1, L1) ∧ Elements m1 L1 [2] ∧
      GetSize L1 + 1 = GetSize demoList ∧ GetSize L1 = 1 :=
  ⟨(C9_pop_front demoHeap demoEmpty).1 ⟨1, by decide⟩,
   (C9_pop_front demoHeap demoList).2 1 [2] demo_elements (by decide)
     (by decide)⟩

theorem std_equal_chain (eq : α → α → Bool) {m : Heap α} (lhs rhs : SingleLinkedList α) :
    ∀ (cs ds : List (Nat × α)) (p q : NodePtr) (fuel : Nat), Chain m p cs → Chain m q ds →
    min cs.length ds.length < fuel →
    std_equal eq m lhs rhs ⟨NodePtr.null⟩ ⟨NodePtr.null⟩ fuel ⟨p⟩ ⟨q⟩ =
      Except.ok (pairwiseEq eq (cs.map Prod.snd) (ds.map Prod.snd))
  | [], ds, p, q, fuel, hp, hq, hf => by
    obtain ⟨f, rfl⟩ : ∃ f, fuel = f + 1 := ⟨fuel - 1, by omega⟩
    have h1 : p = NodePtr.null := hp
    subst h1
    cases ds with
    | nil =>
      have h2 : q = NodePtr.null := hq
      subst h2
      simp [std_equal, BasicIterator.ne, BasicIterator.eq, pairwiseEq]
    | cons d ds =>
      obtain ⟨h2, _⟩ := hq
      subst h2
      simp [std_equal, BasicIterator.ne, BasicIterator.eq, pairwiseEq]
  | c :: cs, [], p, q, fuel, hp, hq, hf => by
    obtain ⟨f, rfl⟩ : ∃ f, fuel = f + 1 := ⟨fuel - 1, by omega⟩
    have h2 : q = NodePtr.null := hq
    subst h2
    obtain ⟨h1, _⟩ := hp
    subst h1
    simp [std_equal, BasicIterator.ne, BasicIterator.eq, pairwiseEq]
  | c :: cs, d :: ds, p, q, fuel, hp, hq, hf => by
    obtain ⟨f, rfl⟩ : ∃ f, fuel = f + 1 := ⟨fuel - 1, by omega⟩
    obtain ⟨h1, p1, hc, hp1⟩ := hp
    obtain ⟨h2, q1, hd, hq1⟩ := hq
    subst h1
    subst h2
    have ih := std_equal_chain eq lhs rhs cs ds p1 q1 f hp1 hq1 (by
      simp only [List.length_cons] at hf
      omega)
    cases he : eq c.2 d.2 with
    | false =>
      simp [std_equal, BasicIterator.ne, BasicIterator.deref, getValue, hc, hd, he,
        pairwiseEq]
    | true =>
      simp [std_equal, BasicIterator.ne, BasicIterator.deref, getValue, hc, hd, he,
        pairwiseEq, BasicIterator.preIncrement, getNext, ih]

theorem pairwiseEq_iff (eq : α → α → Bool) : ∀ (xs ys : List α),
    pairwiseEq eq xs ys = true ↔
      xs.length = ys.length ∧
        ∀ (i : Nat) (h1 : i < xs.length) (h2 : i < ys.length),
          eq (xs.get ⟨i, h1⟩) (ys.get ⟨i, h2⟩) = true
  | [], [] => by simp [pairwiseEq]
  | [], y :: ys => by simp [pairwiseEq]
  | x :: xs, [] => by simp [pairwiseEq]
  | x :: xs, y :: ys => by
    simp only [pairwiseEq, Bool.and_eq_true, pairwiseEq_iff eq xs ys, List.length_cons,
      Nat.add_right_cancel_iff]
    constructor
    · rintro ⟨h0, hl, hr⟩
      refine ⟨hl, ?_⟩
      intro i h1 h2
      cases i with
      | zero => exact h0
      | succ i => exact hr i (by simpa using h1) (by simpa using h2)
    · rintro ⟨hl, hr⟩
      refine ⟨hr 0 (by simp) (by simp), hl, ?_⟩
      intro i h1 h2
      exact hr (i + 1) (by simpa using h1) (by simpa using h2)

/-- C10. For all lists `a` and `b` (with elements `xs` and `ys`) and an element equality
`eq`, `operator==(a, b)` returns, and returns `true` exactly when `xs` and `ys` have the
same length and their elements are pairwise `eq` in traversal order; lists of different
lengths are never equal (also when one is a prefix of the other); `operator!=` returns the
negation. `fuel` bounds the loop of `std::equal`, which makes at most
`min |xs| |ys| + 1` tests. -/
theorem C10_operator_eq_iff_same_length_and_pairwise_equal (eq : α → α → Bool) (m : Heap α)
    (a b : SingleLinkedList α) (xs ys : List α) (fuel : Nat) (ha : Elements m a xs)
    (hb : Elements m b ys) (hfuel : min xs.length ys.length < fuel) :
    ∃ r, operatorEq eq fuel m a b = Except.ok r ∧
      (r = true ↔ xs.length = ys.length ∧
        ∀ (i : Nat) (h1 : i < xs.length) (h2 : i < ys.length),
          eq (xs.get ⟨i, h1⟩) (ys.get ⟨i, h2⟩) = true) ∧
      (xs.length ≠ ys.length → r = false) ∧
      operatorNe eq fuel m a b = Except.ok (!r) := by
  obtain ⟨cs, hca, hma⟩ := chain_of_elements ha
  obtain ⟨ds, hcb, hmb⟩ := chain_of_elements hb
  have hrun := std_equal_chain eq a b cs ds _ _ fuel hca hcb (by
    rw [← hma, ← hmb] at hfuel
    simpa using hfuel)
  rw [hma, hmb] at hrun
  have hiff := pairwiseEq_iff eq xs ys
  refine ⟨pairwiseEq eq xs ys, hrun, hiff, ?_, ?_⟩
  · intro hne
    cases hr : pairwiseEq eq xs ys with
    | false => rfl
    | true => exact absurd (hiff.1 hr).1 hne
  · have : operatorEq eq fuel m a b = Except.ok (pairwiseEq eq xs ys) := hrun
    simp only [operatorNe, this]

/-- C10 at the list `[1, 2]` and its prefix `[1]` (a third node) with the equality of
naturals: `operator==` returns `false`, `operator!=` returns `true`. -/
theorem C10_witness :
    ∃ (r : Bool), operatorEq (fun x y => decide (x = y)) 2
        (demoHeap ++ [some ⟨1, NodePtr.null⟩]) demoList ⟨⟨0, NodePtr.heap 2⟩, 1⟩ =
          Except.ok r ∧
      (r = true ↔ [1, 2].length = [1].length ∧
        ∀ (i : Nat) (h1 : i < [1, 2].length) (h2 : i < [1].length),
          (fun x y => decide (x = y)) ([1, 2].get ⟨i, h1⟩) ([1].get ⟨i, h2⟩) = true) ∧
      ([1, 2].length ≠ [1].length → r = false) ∧
      operatorNe (fun x y => decide (x = y)) 2
        (demoHeap ++ [some ⟨1, NodePtr.null⟩]) demoList ⟨⟨0, NodePtr.heap 2⟩, 1⟩ =
          Except.ok (!r) :=
  C10_operator_eq_iff_same_length_and_pairwise_equal (fun x y => decide (x = y))
    (demoHeap ++ [some ⟨1, NodePtr.null⟩]) demoList ⟨⟨0, NodePtr.heap 2⟩, 1⟩ [1, 2] [1] 2
    ⟨3, by decide⟩ ⟨2, by decide⟩ (by decide)

/-! ## The ordering of lists -/

theorem std_lexicographical_compare_chain (lt : α → α → Bool) {m : Heap α}
    (lhs rhs : SingleLinkedList α) :
    ∀ (cs ds : List (Nat × α)) (p q : NodePtr) (fuel : Nat), Chain m p cs → Chain m q ds →
    min cs.length ds.length < fuel →
    std_lexicographical_compare lt m lhs rhs ⟨NodePtr.null⟩ ⟨NodePtr.null⟩ fuel ⟨p⟩ ⟨q⟩ =
      Except.ok (lexLt lt (cs.map Prod.snd) (ds.map Prod.snd))
  | [], ds, p, q, fuel, hp, hq, hf => by
    obtain ⟨f, rfl⟩ : ∃ f, fuel = f + 1 := ⟨fuel - 1, by omega⟩
    have h1 : p = NodePtr.null := hp
    subst h1
    cases ds with
    | nil =>
      have h2 : q = NodePtr.null := hq
      subst h2
      simp [std_lexicographical_compare, BasicIterator.ne, BasicIterator.eq, lexLt]
    | cons d ds =>
      obtain ⟨h2, _⟩ := hq
      subst h2
      simp [std_lexicographical_compare, BasicIterator.ne, BasicIterator.eq, lexLt]
  | c :: cs, [], p, q, fuel, hp, hq, hf => by
    obtain ⟨f, rfl⟩ : ∃ f, fuel = f + 1 := ⟨fuel - 1, by omega⟩
    have h2 : q = NodePtr.null := hq
    subst h2
    obtain ⟨h1, _⟩ := hp
    subst h1
    simp [std_lexicographical_compare, BasicIterator.ne, BasicIterator.eq, lexLt]
  | c :: cs, d :: ds, p, q, fuel, hp, hq, hf => by
    obtain ⟨f, rfl⟩ : ∃ f, fuel = f + 1 := ⟨fuel - 1, by omega⟩
    obtain ⟨h1, p1, hc, hp1⟩ := hp
    obtain ⟨h2, q1, hd, hq1⟩ := hq
    subst h1
    subst h2
    have ih := std_lexicographical_compare_chain lt lhs rhs cs ds p1 q1 f hp1 hq1 (by
      simp only [List.length_cons] at hf
      omega)
    cases h1 : lt c.2 d.2 with
    | true =>
      simp [std_lexicographical_compare, BasicIterator.ne, BasicIterator.deref, getValue,
        hc, hd, h1, lexLt]
    | false =>
      cases h2 : lt d.2 c.2 with
      | true =>
        simp [std_lexicographical_compare, BasicIterator.ne, BasicIterator.deref, getValue,
          hc, hd, h1, h2, lexLt]
      | false =>
        simp [std_lexicographical_compare, BasicIterator.ne, BasicIterator.deref, getValue,
          hc, hd, h1, h2, lexLt, BasicIterator.preIncrement, getNext, ih]

theorem operatorLt_elements (lt : α → α → Bool) {m : Heap α} {a b : SingleLinkedList α}
    {xs ys : List α} {fuel : Nat} (ha : Elements m a xs) (hb : Elements m b ys)
    (hfuel : min xs.length ys.length < fuel) :
    operatorLt lt fuel m a b = Except.ok (lexLt lt xs ys) := by
  obtain ⟨cs, hca, hma⟩ := chain_of_elements ha
  obtain ⟨ds, hcb, hmb⟩ := chain_of_elements hb
  have hrun := std_lexicographical_compare_chain lt a b cs ds _ _ fuel hca hcb (by
    rw [← hma, ← hmb] at hfuel
    simpa using hfuel)
  rw [hma, hmb] at hrun
  exact hrun

theorem lexLt_iff_Lex (lt : α → α → Bool) (hirr : ∀ x, lt x x = false)
    (htri : ∀ x y, lt x y = false → lt y x = false → x = y) : ∀ (xs ys : List α),
    lexLt lt xs ys = true ↔ List.Lex (fun x y => lt x y = true) xs ys
  | [], [] => by
    simp only [lexLt]
    constructor
    · intro h
      cases h
    · intro h
      cases h
  | [], y :: ys => by
    simp only [lexLt]
    exact ⟨fun _ => List.Lex.nil, fun _ => trivial⟩
  | x :: xs, [] => by
    simp only [lexLt]
    constructor
    · intro h
      cases h
    · intro h
      cases h
  | x :: xs, y :: ys => by
    have ih := lexLt_iff_Lex lt hirr htri xs ys
    cases h1 : lt x y with
    | true =>
      simp only [lexLt, h1, if_true]
      exact ⟨fun _ => List.Lex.rel h1, fun _ => trivial⟩
    | false =>
      cases h2 : lt y x with
      | true =>
        simp only [lexLt, h1, h2, if_true]
        constructor
        · intro h
          cases h
        · intro h
          cases h with
          | cons h =>
            rw [hirr] at h2
            cases h2
          | rel h =>
            rw [h1] at h
            cases h
      | false =>
        have hxy := htri x y h1 h2
        subst hxy
        simp only [lexLt, h1]
        simp only [Bool.false_eq_true, if_false]
        rw [ih]
        constructor
        · intro h
          exact List.Lex.cons h
        · intro h
          cases h with
          | cons h => exact h
          | rel h =>
            rw [h1] at h
            cases h

theorem lexLt_iff_first_difference (lt : α → α → Bool) (hirr : ∀ x, lt x x = false)
    (htri : ∀ x y, lt x y = false → lt y x = false → x = y) : ∀ (xs ys : List α),
    lexLt lt xs ys = true ↔
      (∃ (i : Nat) (h1 : i < xs.length) (h2 : i < ys.length),
        xs.take i = ys.take i ∧ lt (xs.get ⟨i, h1⟩) (ys.get ⟨i, h2⟩) = true) ∨
      (∃ t, t ≠ [] ∧ ys = xs ++ t)
  | [], [] => by
    simp [lexLt]
  | [], y :: ys => by
    simp [lexLt]
  | x :: xs, [] => by
    simp [lexLt]
  | x :: xs, y :: ys => by
    have ih := lexLt_iff_first_difference lt hirr htri xs ys
    cases h1 : lt x y with
    | true =>
      simp only [lexLt, h1, if_true, true_iff]
      left
      exact ⟨0, by simp, by simp, rfl, h1⟩
    | false =>
      cases h2 : lt y x with
      | true =>
        simp only [lexLt, h1, h2, if_true]
        constructor
        · intro h
          cases h
        · rintro (⟨i, hi1, hi2, htake, hlt⟩ | ⟨t, _, ht⟩)
          · cases i with
            | zero =>
              simp only [List.get_eq_getElem, List.getElem_cons_zero] at hlt
              rw [h1] at hlt
              cases hlt
            | succ i =>
              simp only [List.take_succ_cons, List.cons.injEq] at htake
              rw [htake.1, hirr] at h2
              cases h2
          · simp only [List.cons_append, List.cons.injEq] at ht
            rw [ht.1, hirr] at h2
            cases h2
      | false =>
        have hxy := htri x y h1 h2
        subst hxy
        simp only [lexLt, h1]
        simp only [Bool.false_eq_true, if_false]
        rw [ih]
        constructor
        · rintro (⟨i, hi1, hi2, htake, hlt⟩ | ⟨t, hne, ht⟩)
          · left
            refine ⟨i + 1, by simpa using hi1, by simpa using hi2, ?_, ?_⟩
            · simp [htake]
            · simpa using hlt
          · right
            exact ⟨t, hne, by simp [ht]⟩
        · rintro (⟨i, hi1, hi2, htake, hlt⟩ | ⟨t, hne, ht⟩)
          · cases i with
            | zero =>
              simp only [List.get_eq_getElem, List.getElem_cons_zero] at hlt
              rw [h1] at hlt
              cases hlt
            | succ i =>
              left
              simp only [List.take_succ_cons, List.cons.injEq, true_and] at htake
              refine ⟨i, by simpa using hi1, by simpa using hi2, htake, ?_⟩
              simpa using hlt
          · right
            simp only [List.cons_append, List.cons.injEq, true_and] at ht
            exact ⟨t, hne, ht⟩

theorem lexLt_iff_first_inequivalent (lt : α → α → Bool) : ∀ (xs ys : List α),
    lexLt lt xs ys = true ↔
      (∃ (i : Nat) (h1 : i < xs.length) (h2 : i < ys.length),
        List.Forall₂ (fun x y => lt x y = false ∧ lt y x = false) (xs.take i) (ys.take i) ∧
        lt (xs.get ⟨i, h1⟩) (ys.get ⟨i, h2⟩) = true) ∨
      (∃ s t, t ≠ [] ∧ ys = s ++ t ∧
        List.Forall₂ (fun x y => lt x y = false ∧ lt y x = false) xs s)
  | [], [] => by
    simp only [lexLt]
    constructor
    · intro h
      cases h
    · rintro (⟨i, hi1, _⟩ | ⟨s, t, hne, ht, _⟩)
      · simp at hi1
      · have := List.append_eq_nil.1 ht.symm
        exact absurd this.2 hne
  | [], y :: ys => by
    simp only [lexLt, true_iff]
    right
    exact ⟨[], y :: ys, by simp, rfl, List.Forall₂.nil⟩
  | x :: xs, [] => by
    simp only [lexLt]
    constructor
    · intro h
      cases h
    · rintro (⟨i, _, hi2, _⟩ | ⟨s, t, hne, ht, _⟩)
      · simp at hi2
      · have := List.append_eq_nil.1 ht.symm
        exact absurd this.2 hne
  | x :: xs, y :: ys => by
    have ih := lexLt_iff_first_inequivalent lt xs ys
    cases h1 : lt x y with
    | true =>
      simp only [lexLt, h1, if_true, true_iff]
      left
      exact ⟨0, by simp, by simp, List.Forall₂.nil, h1⟩
    | false =>
      cases h2 : lt y x with
      | true =>
        simp only [lexLt, h1, h2, if_true]
        constructor
        · intro h
          cases h
        · rintro (⟨i, hi1, hi2, htake, hlt⟩ | ⟨s, t, _, ht, hall⟩)
          · cases i with
            | zero =>
              simp only [List.get_eq_getElem, List.getElem_cons_zero] at hlt
              rw [h1] at hlt
              cases hlt
            | succ i =>
              simp only [List.take_succ_cons, List.forall₂_cons] at htake
              rw [htake.1.2] at h2
              cases h2
          · cases hall with
            | cons hxy hrest =>
              simp only [List.cons_append, List.cons.injEq] at ht
              rw [← ht.1] at hxy
              rw [hxy.2] at h2
              cases h2
      | false =>
        simp only [lexLt, h1, h2]
        simp only [Bool.false_eq_true, if_false]
        rw [ih]
        constructor
        · rintro (⟨i, hi1, hi2, htake, hlt⟩ | ⟨s, t, hne, ht, hall⟩)
          · left
            refine ⟨i + 1, by simpa using hi1, by simpa using hi2, ?_, ?_⟩
            · simp only [List.take_succ_cons, List.forall₂_cons]
              exact ⟨⟨h1, h2⟩, htake⟩
            · simpa using hlt
          · right
            exact ⟨y :: s, t, hne, by simp [ht], List.Forall₂.cons ⟨h1, h2⟩ hall⟩
        · rintro (⟨i, hi1, hi2, htake, hlt⟩ | ⟨s, t, hne, ht, hall⟩)
          · cases i with
            | zero =>
              simp only [List.get_eq_getElem, List.getElem_cons_zero] at hlt
              rw [h1] at hlt
              cases hlt
            | succ i =>
              left
              simp only [List.take_succ_cons, List.forall₂_cons] at htake
              refine ⟨i, by simpa using hi1, by simpa using hi2, htake.2, ?_⟩
              simpa using hlt
          · right
            cases hall with
            | cons hxy hrest =>
              simp only [List.cons_append, List.cons.injEq] at ht
              exact ⟨_, t, hne, ht.2, hrest⟩

/-- C11 at a strict order that is not total. With pairs compared by their first
component (`ltFirst`, irreflexive and transitive) the lists `[(0, 0), (1, 0)]` and
`[(0, 1), (2, 0)]` differ first at index 0, where neither element is less than the
other, and the first is not a prefix of the second (nor are the two in the order
`List.Lex`); yet `operator<` returns `true`, because `std::lexicographical_compare`
steps over the two incomparable elements and decides at index 1. -/
theorem C11_counterexample_incomparable_elements :
    (∀ p, ltFirst p p = false) ∧
    (∀ p q r, ltFirst p q = true → ltFirst q r = true → ltFirst p r = true) ∧
    Elements pairHeap (pairListAt 0 2) [(0, 0), (1, 0)] ∧
    Elements pairHeap (pairListAt 2 2) [(0, 1), (2, 0)] ∧
    operatorLt ltFirst 3 pairHeap (pairListAt 0 2) (pairListAt 2 2) = Except.ok true ∧
    ¬ ((∃ (i : Nat) (h1 : i < [((0 : Nat), (0 : Nat)), (1, 0)].length)
          (h2 : i < [((0 : Nat), (1 : Nat)), (2, 0)].length),
        [((0 : Nat), (0 : Nat)), (1, 0)].take i = [((0 : Nat), (1 : Nat)), (2, 0)].take i ∧
        ltFirst ([((0 : Nat), (0 : Nat)), (1, 0)].get ⟨i, h1⟩)
          ([((0 : Nat), (1 : Nat)), (2, 0)].get ⟨i, h2⟩) = true) ∨
      (∃ t, t ≠ [] ∧
        [((0 : Nat), (1 : Nat)), (2, 0)] = [((0 : Nat), (0 : Nat)), (1, 0)] ++ t)) ∧
    ¬ List.Lex (fun p q => ltFirst p q = true) [((0 : Nat), (0 : Nat)), (1, 0)]
      [((0 : Nat), (1 : Nat)), (2, 0)] := by
  refine ⟨?_, ?_, ⟨3, by decide⟩, ⟨3, by decide⟩, by decide, ?_, ?_⟩
  · intro p
    simp [ltFirst]
  · intro p q r h1 h2
    simp only [ltFirst, decide_eq_true_eq] at h1 h2 ⊢
    omega
  · rintro (⟨i, hi1, hi2, htake, hlt⟩ | ⟨t, _, ht⟩)
    · cases i with
      | zero => simp [ltFirst] at hlt
      | succ i =>
        simp only [List.take_succ_cons, List.cons.injEq, Prod.mk.injEq] at htake
        omega
    · simp only [List.cons_append, List.cons.injEq, Prod.mk.injEq] at ht
      omega
  · intro h
    cases h with
    | rel h => simp [ltFirst] at h

/-- C11. For all lists `a` and `b` (elements `xs` and `ys`) and every element
`operator<` (`lt`), `operator<(a, b)` returns, and its result is the standard
lexicographic comparison in which two elements neither of which is `lt` the other count
as equivalent: it is `true` exactly when at the first index where the two elements are
not equivalent the element of `xs` is `lt` that of `ys`, or `xs` is shorter than `ys`
and every element of `xs` is equivalent to the element of `ys` at its index. Where `lt`
is a strict total order (`lt x x` is false, and two elements neither of which is `lt`
the other are equal) equivalent elements are equal, and the result is `true` exactly
when at the first index where `xs` and `ys` differ the element of `xs` is `lt` that of
`ys`, or `xs` is a proper prefix of `ys`, which is the order `List.Lex` of the two
sequences. `fuel` bounds the loop of `std::lexicographical_compare`. -/
theorem C11_operator_lt_is_lexicographic (lt : α → α → Bool) (m : Heap α)
    (a b : SingleLinkedList α) (xs ys : List α) (fuel : Nat)
    (ha : Elements m a xs) (hb : Elements m b ys)
    (hfuel : min xs.length ys.length < fuel) :
    ∃ r, operatorLt lt fuel m a b = Except.ok r ∧
      (r = true ↔
        (∃ (i : Nat) (h1 : i < xs.length) (h2 : i < ys.length),
          List.Forall₂ (fun x y => lt x y = false ∧ lt y x = false) (xs.take i)
            (ys.take i) ∧
          lt (xs.get ⟨i, h1⟩) (ys.get ⟨i, h2⟩) = true) ∨
        (∃ s t, t ≠ [] ∧ ys = s ++ t ∧
          List.Forall₂ (fun x y => lt x y = false ∧ lt y x = false) xs s)) ∧
      ((∀ x, lt x x = false) → (∀ x y, lt x y = false → lt y x = false → x = y) →
        (r = true ↔
          (∃ (i : Nat) (h1 : i < xs.length) (h2 : i < ys.length),
            xs.take i = ys.take i ∧ lt (xs.get ⟨i, h1⟩) (ys.get ⟨i, h2⟩) = true) ∨
          (∃ t, t ≠ [] ∧ ys = xs ++ t)) ∧
        (r = true ↔ List.Lex (fun x y => lt x y = true) xs ys)) :=
  ⟨lexLt lt xs ys, operatorLt_elements lt ha hb hfuel,
    lexLt_iff_first_inequivalent lt xs ys,
    fun hirr htri => ⟨lexLt_iff_first_difference lt hirr htri xs ys,
      lexLt_iff_Lex lt hirr htri xs ys⟩⟩

/-- C11 at `[1, 2, 3]` against `[1, 2, 3, 4]` and at `[1, 2]` against `[1, 3]`, with the
order of the naturals (a strict total order): both comparisons return `true`. -/
theorem C11_witness :
    (∃ (r : Bool), operatorLt (fun x y => decide (x < y)) 4 orderHeap (listAt 0 3)
        (listAt 3 4) = Except.ok r ∧
      (r = true ↔
        (∃ (i : Nat) (h1 : i < [1, 2, 3].length) (h2 : i < [1, 2, 3, 4].length),
          List.Forall₂ (fun x y => decide (x < y) = false ∧ decide (y < x) = false)
            ([1, 2, 3].take i) ([1, 2, 3, 4].take i) ∧
          (fun x y => decide (x < y)) ([1, 2, 3].get ⟨i, h1⟩) ([1, 2, 3, 4].get ⟨i, h2⟩)
            = true) ∨
        (∃ s t, t ≠ [] ∧ [1, 2, 3, 4] = s ++ t ∧
          List.Forall₂ (fun x y => decide (x < y) = false ∧ decide (y < x) = false)
            [1, 2, 3] s)) ∧
      (r = true ↔
        (∃ (i : Nat) (h1 : i < [1, 2, 3].length) (h2 : i < [1, 2, 3, 4].length),
          [1, 2, 3].take i = [1, 2, 3, 4].take i ∧
          (fun x y => decide (x < y)) ([1, 2, 3].get ⟨i, h1⟩) ([1, 2, 3, 4].get ⟨i, h2⟩)
            = true) ∨
        (∃ t, t ≠ [] ∧ [1, 2, 3, 4] = [1, 2, 3] ++ t)) ∧
      (r = true ↔ List.Lex (fun x y => decide (x < y) = true) [1, 2, 3] [1, 2, 3, 4])) ∧
    operatorLt (fun x y => decide (x < y)) 4 orderHeap (listAt 0 3) (listAt 3 4) =
      Except.ok true ∧
    (∃ (r : Bool), operatorLt (fun x y => decide (x < y)) 3 orderHeap (listAt 7 2)
        (listAt 9 2) = Except.ok r ∧
      (r = true ↔
        (∃ (i : Nat) (h1 : i < [1, 2].length) (h2 : i < [1, 3].length),
          List.Forall₂ (fun x y => decide (x < y) = false ∧ decide (y < x) = false)
            ([1, 2].take i) ([1, 3].take i) ∧
          (fun x y => decide (x < y)) ([1, 2].get ⟨i, h1⟩) ([1, 3].get ⟨i, h2⟩) = true) ∨
        (∃ s t, t ≠ [] ∧ [1, 3] = s ++ t ∧
          List.Forall₂ (fun x y => decide (x < y) = false ∧ decide (y < x) = false)
            [1, 2] s)) ∧
      (r = true ↔
        (∃ (i : Nat) (h1 : i < [1, 2].length) (h2 : i < [1, 3].length),
          [1, 2].take i = [1, 3].take i ∧
          (fun x y => decide (x < y)) ([1, 2].get ⟨i, h1⟩) ([1, 3].get ⟨i, h2⟩) = true) ∨
        (∃ t, t ≠ [] ∧ [1, 3] = [1, 2] ++ t)) ∧
      (r = true ↔ List.Lex (fun x y => decide (x < y) = true) [1, 2] [1, 3])) ∧
    operatorLt (fun x y => decide (x < y)) 3 orderHeap (listAt 7 2) (listAt 9 2) =
      Except.ok true :=
  ⟨(C11_operator_lt_is_lexicographic (fun x y => decide (x < y)) orderHeap (listAt 0 3)
      (listAt 3 4) [1, 2, 3] [1, 2, 3, 4] 4 ⟨4, by decide⟩ ⟨5, by decide⟩
      (by decide)).imp (fun _ h => ⟨h.1, h.2.1, h.2.2 (by simp)
        (by
          intro x y h1 h2
          simp only [decide_eq_false_iff_not, not_lt] at h1 h2
          omega)⟩),
    by decide,
    (C11_operator_lt_is_lexicographic (fun x y => decide (x < y)) orderHeap (listAt 7 2)
      (listAt 9 2) [1, 2] [1, 3] 3 ⟨3, by decide⟩ ⟨3, by decide⟩
      (by decide)).imp (fun _ h => ⟨h.1, h.2.1, h.2.2 (by simp)
        (by
          intro x y h1 h2
          simp only [decide_eq_false_iff_not, not_lt] at h1 h2
          omega)⟩),
    by decide⟩

theorem pairwiseEq_refl (eq : α → α → Bool) (hrefl : ∀ x, eq x x = true) :
    ∀ (S : List α), pairwiseEq eq S S = true
  | [] => rfl
  | x :: S => by
    simp only [pairwiseEq, hrefl, pairwiseEq_refl eq hrefl S, Bool.and_self]

theorem lexLt_append_right (lt : α → α → Bool) (hirr : ∀ x, lt x x = false) (x : α) :
    ∀ (S : List α), lexLt lt S (S ++ [x]) = true
  | [] => rfl
  | y :: S => by
    have ih := lexLt_append_right lt hirr x S
    simp only [List.cons_append, lexLt, hirr, Bool.false_eq_true, if_false]
    exact ih

theorem lexLt_append_left (lt : α → α → Bool) (hirr : ∀ x, lt x x = false) (x : α) :
    ∀ (S : List α), lexLt lt (S ++ [x]) S = false
  | [] => rfl
  | y :: S => by
    have ih := lexLt_append_left lt hirr x S
    simp only [List.cons_append, lexLt, hirr, Bool.false_eq_true, if_false]
    exact ih

theorem operatorGt_elements (lt : α → α → Bool) {m : Heap α} {a b : SingleLinkedList α}
    {xs ys : List α} {fuel : Nat} (ha : Elements m a xs) (hb : Elements m b ys)
    (hfuel : min xs.length ys.length < fuel) :
    operatorGt lt fuel m a b = Except.ok (!lexLt lt xs ys) := by
  simp only [operatorGt, operatorLt_elements lt ha hb hfuel]

theorem operatorEq_elements (eq : α → α → Bool) {m : Heap α} {a b : SingleLinkedList α}
    {xs ys : List α} {fuel : Nat} (ha : Elements m a xs) (hb : Elements m b ys)
    (hfuel : min xs.length ys.length < fuel) :
    operatorEq eq fuel m a b = Except.ok (pairwiseEq eq xs ys) := by
  obtain ⟨cs, hca, hma⟩ := chain_of_elements ha
  obtain ⟨ds, hcb, hmb⟩ := chain_of_elements hb
  have hrun := std_equal_chain eq a b cs ds _ _ fuel hca hcb (by
    rw [← hma, ← hmb] at hfuel
    simpa using hfuel)
  rw [hma, hmb] at hrun
  exact hrun

theorem elements_frame {m m2 : Heap α} {L : SingleLinkedList α} {xs : List α}
    (h : Elements m L xs)
    (hframe : ∀ b, b < m.length → m2[b]? = m[b]?) : Elements m2 L xs := by
  obtain ⟨cs, hch, hmap⟩ := chain_of_elements h
  have hl := chain_lt hch
  have := elements_of_chain (chain_frame hch (fun c hc => hframe c.1 (hl c hc)))
  rw [hmap] at this
  exact this

theorem rangeCtor_elements [Inhabited α] (fuel : Nat) (m : Heap α) (S : List α)
    (hf : 0 < fuel) :
    ∃ m1 L, RangeCtor fuel some m S = Except.ok (m1, some L) ∧ Elements m1 L S ∧
      L.size_ = S.length % SIZE_MOD ∧ m.length ≤ m1.length ∧
      ∀ b, b < m.length → m1[b]? = m[b]? := by
  obtain ⟨m1, L, cs, hrun, hsize, hlen, hframe, hch, hmap, _⟩ := rangeCtor_spec fuel m S hf
  refine ⟨m1, L, hrun, ?_, hsize, by omega, hframe⟩
  have := elements_of_chain hch
  rw [hmap] at this
  exact this

/-- C12. For every sequence `S` and every extra element `x` (the `operator==` of the
elements being reflexive and their `operator<` irreflexive): build two lists from `S`
and one from `S` followed by `x` with the range constructor, one after the other in the
same free store. Then `operator==` of the first two returns `true`, `operator>` of the
longer one against the first returns `true`, and `operator<` of the first against the
longer one returns `true`. -/
theorem C12_equal_and_greater_after_append [Inhabited α] (eq lt : α → α → Bool)
    (m : Heap α) (S : List α) (x : α) (fuel : Nat)
    (hrefl : ∀ y, eq y y = true) (hirr : ∀ y, lt y y = false)
    (hfuel : S.length < fuel) :
    ∃ m1 a m2 b m3 c,
      RangeCtor fuel some m S = Except.ok (m1, some a) ∧
      RangeCtor fuel some m1 S = Except.ok (m2, some b) ∧
      RangeCtor fuel some m2 (S ++ [x]) = Except.ok (m3, some c) ∧
      Elements m3 a S ∧ Elements m3 b S ∧ Elements m3 c (S ++ [x]) ∧
      operatorEq eq fuel m3 a b = Except.ok true ∧
      operatorGt lt fuel m3 c a = Except.ok true ∧
      operatorLt lt fuel m3 a c = Except.ok true := by
  obtain ⟨m1, a, hr1, ha1, _, hl1, _⟩ := rangeCtor_elements fuel m S (by omega)
  obtain ⟨m2, b, hr2, hb2, _, hl2, hf2⟩ := rangeCtor_elements fuel m1 S (by omega)
  obtain ⟨m3, c, hr3, hc3, _, hl3, hf3⟩ := rangeCtor_elements fuel m2 (S ++ [x]) (by omega)
  have ha3 : Elements m3 a S := elements_frame (elements_frame ha1 hf2)
    (fun b hb => hf3 b (by omega))
  have hb3 : Elements m3 b S := elements_frame hb2 hf3
  refine ⟨m1, a, m2, b, m3, c, hr1, hr2, hr3, ha3, hb3, hc3, ?_, ?_, ?_⟩
  · rw [operatorEq_elements eq ha3 hb3 (by simpa using hfuel), pairwiseEq_refl eq hrefl]
  · rw [operatorGt_elements lt hc3 ha3 (by
      simp only [List.length_append, List.length_singleton]
      omega), lexLt_append_left lt hirr]
    rfl
  · rw [operatorLt_elements lt ha3 hc3 (by
      simp only [List.length_append, List.length_singleton]
      omega), lexLt_append_right lt hirr]

/-- C12 at `S = [1, 2]` and `x = 3` in an empty free store, with the equality and the
order of the naturals. -/
theorem C12_witness :
    ∃ (m1 : Heap Nat) (a : SingleLinkedList Nat) (m2 : Heap Nat) (b : SingleLinkedList Nat)
      (m3 : Heap Nat) (c : SingleLinkedList Nat),
      RangeCtor 3 some ([] : Heap Nat) [1, 2] = Except.ok (m1, some a) ∧
      RangeCtor 3 some m1 [1, 2] = Except.ok (m2, some b) ∧
      RangeCtor 3 some m2 ([1, 2] ++ [3]) = Except.ok (m3, some c) ∧
      Elements m3 a [1, 2] ∧ Elements m3 b [1, 2] ∧ Elements m3 c ([1, 2] ++ [3]) ∧
      operatorEq (fun x y => decide (x = y)) 3 m3 a b = Except.ok true ∧
      operatorGt (fun x y => decide (x < y)) 3 m3 c a = Except.ok true ∧
      operatorLt (fun x y => decide (x < y)) 3 m3 a c = Except.ok true :=
  C12_equal_and_greater_after_append (fun x y => decide (x = y))
    (fun x y => decide (x < y)) [] [1, 2] 3 3 (by simp) (by simp) (by decide)

/-- C13, the code at equal lists: for the list `[1, 2]` compared with itself and with an
equal list built from other nodes, `operator==` returns `true`, `operator<` returns
`false`, and `operator>`, which the source computes as `!(lhs < rhs)`, returns `true`. -/
theorem C13_operator_gt_returns_true_on_equal_lists :
    operatorEq (fun x y => decide (x = y)) 3 orderHeap (listAt 7 2) (listAt 7 2) =
      Except.ok true ∧
    operatorLt (fun x y => decide (x < y)) 3 orderHeap (listAt 7 2) (listAt 7 2) =
      Except.ok false ∧
    operatorGt (fun x y => decide (x < y)) 3 orderHeap (listAt 7 2) (listAt 7 2) =
      Except.ok true ∧
    operatorEq (fun x y => decide (x = y)) 3 (orderHeap ++ [some ⟨1, NodePtr.heap 12⟩,
      some ⟨2, NodePtr.null⟩]) (listAt 7 2) (listAt 11 2) = Except.ok true ∧
    operatorLt (fun x y => decide (x < y)) 3 (orderHeap ++ [some ⟨1, NodePtr.heap 12⟩,
      some ⟨2, NodePtr.null⟩]) (listAt 11 2) (listAt 7 2) = Except.ok false ∧
    operatorGt (fun x y => decide (x < y)) 3 (orderHeap ++ [some ⟨1, NodePtr.heap 12⟩,
      some ⟨2, NodePtr.null⟩]) (listAt 7 2) (listAt 11 2) = Except.ok true := by
  decide

theorem operatorGt_self_true (lt : α → α → Bool) (hirr : ∀ x, lt x x = false) {m : Heap α}
    {a : SingleLinkedList α} {xs : List α} {fuel : Nat} (ha : Elements m a xs)
    (hfuel : xs.length < fuel) : operatorGt lt fuel m a a = Except.ok true := by
  have hl : ∀ (S : List α), lexLt lt S S = false := by
    intro S
    induction S with
    | nil => rfl
    | cons y S ih => simp only [lexLt, hirr, Bool.false_eq_true, if_false, ih]
  rw [operatorGt_elements lt ha ha (by simpa using hfuel), hl]
  rfl

/-! ## Clear, in full -/

theorem Clear_chain_freed : ∀ (cs : List (Nat × α)) (m : Heap α) (L : SingleLinkedList α)
    (fuel : Nat), Chain m L.head_.next_node cs → cs.length < fuel →
    ∃ m1, Clear fuel m L = Except.ok (m1, ⟨⟨L.head_.value, NodePtr.null⟩, 0⟩) ∧
      m1.length = m.length ∧ (∀ b, (∀ c ∈ cs, c.1 ≠ b) → m1[b]? = m[b]?) ∧
      ∀ c ∈ cs, m1[c.1]? = some none
  | [], m, L, fuel, h, hf => by
    obtain ⟨m1, hrun, hlen, hframe⟩ := Clear_chain [] m L fuel h hf
    exact ⟨m1, hrun, hlen, hframe, fun c hc => by simp at hc⟩
  | c :: post, m, L, fuel, h, hf => by
    obtain ⟨f, rfl⟩ : ∃ f, fuel = f + 1 := ⟨fuel - 1, by omega⟩
    have hc := (chain_cell [] h).1
    have hlt : c.1 < m.length := (List.getElem?_eq_some.1 hc).1
    have hn := chain_head_not_mem h
    have hp : L.head_.next_node = NodePtr.heap c.1 := h.1
    have hpop := chain_pop h
    obtain ⟨m1, hrun, hlen, hframe, hfreed⟩ := Clear_chain_freed post (m.set c.1 none)
      ⟨⟨L.head_.value, headPtr post⟩, L.size_⟩ f hpop (by simpa using hf)
    refine ⟨m1, ?_, by simpa using hlen, ?_, ?_⟩
    · simp only [Clear, hp, getNext, hc, deleteNode]
      simpa using hrun
    · intro b hb
      rw [hframe b (fun e he => hb e (List.mem_cons_of_mem _ he)),
        List.getElem?_set_ne (hb c (List.mem_cons_self _ _))]
    · intro d hd
      rcases List.mem_cons.1 hd with rfl | hd
      · rw [hframe d.1 (fun e he => hn e he), List.getElem?_set_self hlt]
      · exact hfreed d hd

/-- C14. For every list (its traversal yields some `xs`), `Clear()` with a loop budget
above `|xs|` returns (the loop terminates), and afterwards the list has no elements:
`IsEmpty()` is `true`, `GetSize()` is 0 and `begin() == end()`; every node of the list
has been deleted (an iterator to it no longer dereferences). -/
theorem C14_clear_empties_the_list (m : Heap α) (L : SingleLinkedList α) (xs : List α)
    (fuel : Nat) (hel : Elements m L xs) (hfuel : xs.length < fuel) :
    ∃ m1 L1, Clear fuel m L = Except.ok (m1, L1) ∧
      Elements m1 L1 [] ∧ IsEmpty L1 = true ∧ GetSize L1 = 0 ∧
      (begin L1).eq (end_ L1) = true ∧
      (∀ k p, k < xs.length → advance m L k (begin L) = Except.ok p →
        p.deref m1 L1 = Except.error Fault.dangling) := by
  obtain ⟨cs, hch, hmap⟩ := chain_of_elements hel
  have hlen : cs.length = xs.length := by rw [← hmap, List.length_map]
  obtain ⟨m1, hrun, hl, hframe, hfreed⟩ := Clear_chain_freed cs m L fuel hch (by omega)
  refine ⟨m1, _, hrun, ⟨1, rfl⟩, rfl, rfl, rfl, ?_⟩
  intro k p hk hp
  have hadv := advance_chain L k hch (by omega)
  rw [show (⟨L.head_.next_node⟩ : BasicIterator) = begin L from rfl, hp] at hadv
  have hd : cs.drop k = cs[k] :: cs.drop (k + 1) := List.drop_eq_getElem_cons (by omega)
  rw [hd] at hadv
  injection hadv with e
  subst e
  have := hfreed cs[k] (List.getElem_mem _)
  simp [BasicIterator.deref, getValue, headPtr, this]

/-- C14 at the list `[1, 2]` with a budget of three loop tests. -/
theorem C14_witness :
    ∃ (m1 : Heap Nat) (L1 : SingleLinkedList Nat),
      Clear 3 demoHeap demoList = Except.ok (m1, L1) ∧
      Elements m1 L1 [] ∧ IsEmpty L1 = true ∧ GetSize L1 = 0 ∧
      (begin L1).eq (end_ L1) = true ∧
      (∀ k p, k < [1, 2].length → advance demoHeap demoList k (begin demoList) = Except.ok p →
        p.deref m1 L1 = Except.error Fault.dangling) :=
  C14_clear_empties_the_list demoHeap demoList [1, 2] 3 demo_elements (by decide)

theorem elements_congr {m : Heap α} {L K : SingleLinkedList α} {xs : List α}
    (h : Elements m L xs) (hn : K.head_.next_node = L.head_.next_node) :
    Elements m K xs := by
  obtain ⟨cs, hch, hmap⟩ := chain_of_elements h
  rw [← hn] at hch
  have := elements_of_chain hch
  rw [hmap] at this
  exact this

/-- C16. For all lists `a` and `b` (elements `xs` and `ys`), after `a.swap(b)`, and
identically after the free function `swap(a, b)`, `a` has the element sequence and the
`GetSize()` that `b` had and `b` has those that `a` had; the free store is not touched;
swapping twice gives back both list objects. -/
theorem C16_swap_exchanges_lists (m : Heap α) (a b : SingleLinkedList α) (xs ys : List α)
    (ha : Elements m a xs) (hb : Elements m b ys) :
    Elements m (swap a b).1 ys ∧ GetSize (swap a b).1 = GetSize b ∧
    Elements m (swap a b).2 xs ∧ GetSize (swap a b).2 = GetSize a ∧
    freeSwap a b = swap a b ∧
    swap (swap a b).1 (swap a b).2 = (a, b) :=
  ⟨elements_congr hb rfl, rfl, elements_congr ha rfl, rfl, rfl, rfl⟩

/-- C16 at the list `[1, 2]` and the empty list. -/
theorem C16_witness :
    Elements demoHeap (swap demoList demoEmpty).1 [] ∧
    GetSize (swap demoList demoEmpty).1 = GetSize demoEmpty ∧
    Elements demoHeap (swap demoList demoEmpty).2 [1, 2] ∧
    GetSize (swap demoList demoEmpty).2 = GetSize demoList ∧
    freeSwap demoList demoEmpty = swap demoList demoEmpty ∧
    swap (swap demoList demoEmpty).1 (swap demoList demoEmpty).2 = (demoList, demoEmpty) :=
  C16_swap_exchanges_lists demoHeap demoList demoEmpty [1, 2] [] demo_elements
    ⟨1, by decide⟩

/-- C17. For every list that satisfies the size invariant (elements `xs`,
`size_ = |xs|`): `begin() == end()` holds exactly when `IsEmpty()` is `true`, which is
exactly when `GetSize()` is 0; a non-empty list has `*begin()` equal to its first element;
`GetSize()` pre-increments of `begin()` give an iterator equal to `end()`, fewer give one
that is not; and `before_begin()` pre-incremented once is `begin()`. -/
theorem C17_begin_end_and_increments (m : Heap α) (L : SingleLinkedList α) (xs : List α)
    (hel : Elements m L xs) (hinv : L.size_ = xs.length) :
    ((begin L).eq (end_ L) = true ↔ IsEmpty L = true) ∧
    (IsEmpty L = true ↔ GetSize L = 0) ∧
    (∀ x rest, xs = x :: rest → (begin L).deref m L = Except.ok x) ∧
    (∃ e, advance m L (GetSize L) (begin L) = Except.ok e ∧ e.eq (end_ L) = true) ∧
    (∀ k, k < GetSize L →
      ∃ p, advance m L k (begin L) = Except.ok p ∧ p.eq (end_ L) = false) ∧
    (before_begin L).preIncrement m L = Except.ok (begin L) := by
  obtain ⟨cs, hch, hmap⟩ := chain_of_elements hel
  have hlen : cs.length = xs.length := by rw [← hmap, List.length_map]
  refine ⟨?_, ?_, ?_, ?_, ?_, rfl⟩
  · cases cs with
    | nil =>
      have hn : L.head_.next_node = NodePtr.null := hch
      have hz : L.size_ = 0 := by
        rw [hinv, ← hlen]
        rfl
      simp [begin, end_, BasicIterator.eq, IsEmpty, hn, hz]
    | cons c cs =>
      have hn : L.head_.next_node = NodePtr.heap c.1 := hch.1
      have hz : L.size_ ≠ 0 := by
        rw [hinv, ← hlen]
        simp
      simp [begin, end_, BasicIterator.eq, IsEmpty, hn, hz]
  · simp [IsEmpty, GetSize]
  · intro x rest hx
    subst hx
    cases cs with
    | nil => simp at hmap
    | cons c cs =>
      simp only [List.map_cons, List.cons.injEq] at hmap
      have hc := (chain_cell [] hch).1
      have hn : L.head_.next_node = NodePtr.heap c.1 := hch.1
      simp [begin, BasicIterator.deref, getValue, hn, hc, hmap.1]
  · refine ⟨⟨NodePtr.null⟩, ?_, rfl⟩
    have := advance_chain L (GetSize L) hch (by
      show L.size_ ≤ cs.length
      omega)
    rw [List.drop_eq_nil_of_le (by
      show cs.length ≤ L.size_
      omega)] at this
    exact this
  · intro k hk
    have hk2 : k < cs.length := by
      have : k < L.size_ := hk
      omega
    have := advance_chain L k hch (by omega)
    rw [List.drop_eq_getElem_cons hk2] at this
    exact ⟨_, this, rfl⟩

/-- C17 at the list `[1, 2]`. -/
theorem C17_witness :
    ((begin demoList).eq (end_ demoList) = true ↔ IsEmpty demoList = true) ∧
    (IsEmpty demoList = true ↔ GetSize demoList = 0) ∧
    (∀ x rest, [1, 2] = x :: rest → (begin demoList).deref demoHeap demoList = Except.ok x) ∧
    (∃ e, advance demoHeap demoList (GetSize demoList) (begin demoList) = Except.ok e ∧
      e.eq (end_ demoList) = true) ∧
    (∀ k, k < GetSize demoList →
      ∃ p, advance demoHeap demoList k (begin demoList) = Except.ok p ∧
        p.eq (end_ demoList) = false) ∧
    (before_begin demoList).preIncrement demoHeap demoList = Except.ok (begin demoList) :=
  C17_begin_end_and_increments demoHeap demoList [1, 2] demo_elements rfl

theorem last_node_split {m : Heap α} {L : SingleLinkedList α} {cs : List (Nat × α)}
    {p : BasicIterator} {k : Nat} (h : Chain m L.head_.next_node cs) (hk : k + 1 = cs.length)
    (hp : advance m L k (begin L) = Except.ok p) :
    ∃ pre c, cs = pre ++ [c] ∧ p = ⟨NodePtr.heap c.1⟩ ∧
      m[c.1]? = some (some ⟨c.2, NodePtr.null⟩) := by
  rw [← advance_succ_before_begin] at hp
  obtain ⟨pre, c, post, hcs, hpre, hpc⟩ := position_split h (by omega) hp
  subst hcs
  have hpost : post = [] := by
    apply List.length_eq_zero.1
    simp only [List.length_append, List.length_cons] at hk
    omega
  subst hpost
  exact ⟨pre, c, rfl, hpc, (chain_cell pre h).1⟩

theorem postIncrement_last_node {m : Heap α} {L : SingleLinkedList α} {xs : List α}
    {p : BasicIterator} {k : Nat} (hel : Elements m L xs) (hk : k + 1 = xs.length)
    (hp : advance m L k (begin L) = Except.ok p) :
    p.postIncrement m L = Except.error Fault.assert_failed ∧
      p.preIncrement m L = Except.ok (end_ L) := by
  obtain ⟨cs, hch, hmap⟩ := chain_of_elements hel
  have hlen : cs.length = xs.length := by rw [← hmap, List.length_map]
  obtain ⟨pre, c, _, rfl, hc⟩ := last_node_split hch (by omega) hp
  simp [BasicIterator.postIncrement, BasicIterator.preIncrement, getNext, hc, end_]

theorem postIncrement_with_successor {m : Heap α} {L : SingleLinkedList α} {xs : List α}
    {p : BasicIterator} {j : Nat} (hel : Elements m L xs) (hj : j < xs.length)
    (hp : advance m L j (before_begin L) = Except.ok p) :
    ∃ q, p.preIncrement m L = Except.ok q ∧ p.postIncrement m L = Except.ok (p, q) ∧
      advance m L (j + 1) (before_begin L) = Except.ok q ∧ q.eq (end_ L) = false := by
  obtain ⟨cs, hch, hmap⟩ := chain_of_elements hel
  have hlen : cs.length = xs.length := by rw [← hmap, List.length_map]
  have hq := advance_before_begin L hch j (by omega)
  have hd : cs.drop j = cs[j] :: cs.drop (j + 1) := List.drop_eq_getElem_cons (by omega)
  rw [hd] at hq
  cases j with
  | zero =>
    simp only [advance] at hp
    injection hp with e
    subst e
    have hn : L.head_.next_node = NodePtr.heap (cs[0]).1 := by
      rw [chain_headPtr hch]
      cases cs with
      | nil => exact absurd hj (by simp [← hlen])
      | cons c rest => rfl
    refine ⟨_, ?_, ?_, hq, rfl⟩
    · simp [BasicIterator.preIncrement, before_begin, getNext, hn, headPtr]
    · simp [BasicIterator.postIncrement, before_begin, getNext, hn, headPtr]
  | succ k =>
    obtain ⟨pre, c, post, hcs, hpre, rfl⟩ := position_split hch (by omega) hp
    have hc := (chain_cell pre (hcs ▸ hch)).1
    have hpost : post = cs.drop (k + 1) := by
      rw [hcs, ← hpre]
      simp
    rw [hpost, hd] at hc
    refine ⟨_, ?_, ?_, hq, rfl⟩
    · simp [BasicIterator.preIncrement, getNext, hc, headPtr]
    · simp [BasicIterator.postIncrement, getNext, hc, headPtr]

/-- C18, the code at the last real node: on the list `[1, 2]` post-increment of the
iterator at the last node stops at the `assert(node_->next_node != nullptr)` of the
source, although pre-increment takes the same iterator to `end()`; at the first node,
which has a successor node, post-increment returns the old position and advances as
pre-increment does; at `before_begin()` of the empty list the `assert` stops it as
well. -/
theorem C18_post_increment_asserts_at_last_node :
    BasicIterator.postIncrement demoHeap demoList ⟨NodePtr.heap 1⟩ =
      Except.error Fault.assert_failed ∧
    BasicIterator.preIncrement demoHeap demoList ⟨NodePtr.heap 1⟩ =
      Except.ok (end_ demoList) ∧
    advance demoHeap demoList 1 (begin demoList) = Except.ok ⟨NodePtr.heap 1⟩ ∧
    BasicIterator.postIncrement demoHeap demoList ⟨NodePtr.heap 0⟩ =
      Except.ok (⟨NodePtr.heap 0⟩, ⟨NodePtr.heap 1⟩) ∧
    BasicIterator.preIncrement demoHeap demoList ⟨NodePtr.heap 0⟩ =
      Except.ok ⟨NodePtr.heap 1⟩ ∧
    BasicIterator.postIncrement demoHeap demoEmpty (before_begin demoEmpty) =
      Except.error Fault.assert_failed := by
  decide

/-- C20. `EraseAfter` tests only whether the list is empty: for every non-empty list
(elements `xs`) and the position `p` of its last real node (`k` steps after `begin()`,
`k + 1 = |xs|`), `begin() == end()` is false, `++p` is `end()`, and `EraseAfter(p)` goes
on to read `next_node` through the null successor (`Fault.null_deref`) instead of
returning; for every position that has a successor (`j < |xs|` steps after
`before_begin()`) `EraseAfter` returns. -/
theorem C20_erase_after_last_node_dereferences_null (m : Heap α) (L : SingleLinkedList α)
    (xs : List α) (p : BasicIterator) (k : Nat) (hel : Elements m L xs)
    (hk : k + 1 = xs.length) (hp : advance m L k (begin L) = Except.ok p) :
    (begin L).eq (end_ L) = false ∧
    p.preIncrement m L = Except.ok (end_ L) ∧
    EraseAfter m L p = Except.error Fault.null_deref ∧
    (∀ j q, j < xs.length → advance m L j (before_begin L) = Except.ok q →
      ∃ r, EraseAfter m L q = Except.ok r) := by
  obtain ⟨cs, hch, hmap⟩ := chain_of_elements hel
  have hlen : cs.length = xs.length := by rw [← hmap, List.length_map]
  obtain ⟨pre, c, hcs, rfl, hc⟩ := last_node_split hch (by omega) hp
  have hnn : L.head_.next_node ≠ NodePtr.null := by
    rw [chain_headPtr hch, hcs]
    cases pre <;> simp [headPtr]
  refine ⟨?_, ?_, ?_, ?_⟩
  · simp [begin, end_, BasicIterator.eq, hnn]
  · simp [BasicIterator.preIncrement, getNext, hc, end_]
  · simp [EraseAfter, begin, end_, BasicIterator.eq, hnn, getNext, hc]
  · intro j q hj hq
    obtain ⟨m1, L1, hrun, _⟩ := EraseAfter_at hch (by omega) hq
    exact ⟨_, hrun⟩

/-- C20 at the list `[1, 2]` and its last node. -/
theorem C20_witness :
    (begin demoList).eq (end_ demoList) = false ∧
    BasicIterator.preIncrement demoHeap demoList ⟨NodePtr.heap 1⟩ =
      Except.ok (end_ demoList) ∧
    EraseAfter demoHeap demoList ⟨NodePtr.heap 1⟩ = Except.error Fault.null_deref ∧
    (∀ j q, j < [1, 2].length → advance demoHeap demoList j (before_begin demoList) =
        Except.ok q →
      ∃ r, EraseAfter demoHeap demoList q = Except.ok r) :=
  C20_erase_after_last_node_dereferences_null demoHeap demoList [1, 2] ⟨NodePtr.heap 1⟩ 1
    demo_elements (by decide) (by decide)

theorem advance_getElem {m : Heap α} (L : SingleLinkedList α) {cs : List (Nat × α)}
    (h : Chain m L.head_.next_node cs) (i : Nat) (hi : i < cs.length) :
    advance m L i (begin L) = Except.ok ⟨NodePtr.heap (cs[i]).1⟩ := by
  have := advance_chain L i h (by omega)
  rw [List.drop_eq_getElem_cons hi] at this
  exact this

theorem chains_disjoint {m : Heap α} {a b : SingleLinkedList α} {ca cb : List (Nat × α)}
    (ha : Chain m a.head_.next_node ca) (hb : Chain m b.head_.next_node cb)
    (hdisj : ∀ i, i < ca.length → ∀ j, j < cb.length →
      advance m a i (begin a) ≠ advance m b j (begin b)) :
    ∀ c ∈ ca, ∀ d ∈ cb, c.1 ≠ d.1 := by
  intro c hc d hd e
  obtain ⟨i, hi, rfl⟩ := List.getElem_of_mem hc
  obtain ⟨j, hj, rfl⟩ := List.getElem_of_mem hd
  apply hdisj i hi j hj
  rw [advance_getElem a ha i hi, advance_getElem b hb j hj, e]

/-- C15. For all lists `a` and `b` of one free store (their traversals yield `xa` and
`xb`, `b` satisfies the size invariant within the range of `size_t`, and no node belongs
to both lists), with a loop budget above both lengths: the copy assignment `a = b`
returns, and afterwards the traversal of `a` yields `xb`, `GetSize()` of `a` is that of
`b`, and the traversal of `b` still yields `xb`; the copy constructor on `b` returns a
list with the elements and `GetSize()` of `b` and leaves `b` as it was; the
self-assignment (`this == &rhs`, `rhs = none` in `operatorAssign`) returns with the free
store and the list object unchanged, hence with the same elements and `GetSize()`. -/
theorem C15_copy_assignment_and_copy_constructor [Inhabited α] (m : Heap α)
    (a b : SingleLinkedList α) (xa xb : List α) (fuel : Nat)
    (ha : Elements m a xa) (hb : Elements m b xb)
    (hinv : b.size_ = xb.length) (hfit : xb.length < SIZE_MOD)
    (hdisj : ∀ i, i < xa.length → ∀ j, j < xb.length →
      advance m a i (begin a) ≠ advance m b j (begin b))
    (hfa : xa.length < fuel) (hfb : xb.length < fuel) :
    (∃ m1 a1, operatorAssign fuel some m a (some b) = Except.ok (m1, a1, true) ∧
      Elements m1 a1 xb ∧ GetSize a1 = GetSize b ∧ Elements m1 b xb) ∧
    (∃ m1 c, CopyCtor fuel some m b = Except.ok (m1, some c) ∧
      Elements m1 c xb ∧ GetSize c = GetSize b ∧ Elements m1 b xb) ∧
    operatorAssign fuel some m a none = Except.ok (m, a, true) := by
  obtain ⟨ca, hca, hma⟩ := chain_of_elements ha
  obtain ⟨cb, hcb, hmb⟩ := chain_of_elements hb
  have hla : ca.length = xa.length := by rw [← hma, List.length_map]
  have hlb : cb.length = xb.length := by rw [← hmb, List.length_map]
  have hd := chains_disjoint hca hcb (by rw [hla, hlb]; exact hdisj)
  have hltb := chain_lt hcb
  refine ⟨?_, ?_, rfl⟩
  · obtain ⟨m2, p, cs, hrun, hch, hmap, hframe⟩ :=
      operatorAssign_spec hca hcb (show ca.length < fuel by omega)
        (show cb.length < fuel by omega)
    refine ⟨m2, _, hrun, ?_, ?_, ?_⟩
    · have := @elements_of_chain α m2 ⟨⟨a.head_.value, p⟩, cb.length % SIZE_MOD⟩ cs hch
      rw [hmap, hmb] at this
      exact this
    · simp only [GetSize, hinv, hlb, Nat.mod_eq_of_lt hfit]
    · have := elements_of_chain (chain_frame hcb
        (fun d hdm => hframe d.1 (hltb d hdm) (fun c hc => hd c hc d hdm)))
      rw [hmb] at this
      exact this
  · obtain ⟨m1, c, hrun, hel, hsize, _, hframe⟩ :=
      rangeCtor_elements fuel m (cb.map Prod.snd) (by omega)
    refine ⟨m1, c, ?_, ?_, ?_, elements_frame hb hframe⟩
    · rw [CopyCtor_eq_RangeCtor some hcb (by omega)]
      exact hrun
    · rw [hmb] at hel
      exact hel
    · rw [GetSize, hsize, List.length_map, hlb, Nat.mod_eq_of_lt hfit, GetSize, hinv]

/-- C15 on the free store `orderHeap`, with `a = [1, 2]` (nodes 7, 8) and
`b = [1, 2, 3]` (nodes 0, 1, 2). -/
theorem C15_witness :
    (∃ (m1 : Heap Nat) (a1 : SingleLinkedList Nat),
      operatorAssign 4 some orderHeap (listAt 7 2) (some (listAt 0 3)) =
        Except.ok (m1, a1, true) ∧
      Elements m1 a1 [1, 2, 3] ∧ GetSize a1 = GetSize (listAt 0 3) ∧
      Elements m1 (listAt 0 3) [1, 2, 3]) ∧
    (∃ (m1 : Heap Nat) (c : SingleLinkedList Nat),
      CopyCtor 4 some orderHeap (listAt 0 3) = Except.ok (m1, some c) ∧
      Elements m1 c [1, 2, 3] ∧ GetSize c = GetSize (listAt 0 3) ∧
      Elements m1 (listAt 0 3) [1, 2, 3]) ∧
    operatorAssign 4 some orderHeap (listAt 7 2) none =
      Except.ok (orderHeap, listAt 7 2, true) :=
  C15_copy_assignment_and_copy_constructor orderHeap (listAt 7 2) (listAt 0 3) [1, 2]
    [1, 2, 3] 4 ⟨3, by decide⟩ ⟨4, by decide⟩ rfl (by decide) (by decide) (by decide)
    (by decide)

theorem linkStep_tail_copy {copy : α → Option α} {m : Heap α} (tmp : SingleLinkedList α)
    {a : Nat} {xa : α} {x v : α} (h : m[a]? = some (some ⟨xa, NodePtr.null⟩))
    (hc : copy x = some v) :
    linkStep copy m tmp ⟨NodePtr.heap a⟩ x =
      Except.ok (some ((m ++ [some (⟨v, NodePtr.null⟩ : Node α)]).set a
        (some ⟨xa, NodePtr.heap m.length⟩),
        ⟨tmp.head_, (tmp.size_ + 1) % SIZE_MOD⟩, ⟨NodePtr.heap m.length⟩)) := by
  have hlt : a < m.length := (List.getElem?_eq_some.1 h).1
  have h1 : (m ++ [some (⟨v, NodePtr.null⟩ : Node α)])[a]? = some (some ⟨xa, NodePtr.null⟩) := by
    rw [List.getElem?_append_left hlt]
    exact h
  have h2 : ((m ++ [some (⟨v, NodePtr.null⟩ : Node α)]).set a
      (some ⟨xa, NodePtr.heap m.length⟩))[a]? = some (some ⟨xa, NodePtr.heap m.length⟩) := by
    rw [List.getElem?_set_self]
    simp
    omega
  simp only [linkStep, getNext, h, hc, newNode, setNext, h1, BasicIterator.preIncrement, h2]

theorem linkStep_head_copy {copy : α → Option α} {m : Heap α} (tmp : SingleLinkedList α)
    {x v : α} (h : tmp.head_.next_node = NodePtr.null) (hc : copy x = some v) :
    linkStep copy m tmp ⟨NodePtr.head⟩ x =
      Except.ok (some (m ++ [some (⟨v, NodePtr.null⟩ : Node α)],
        ⟨⟨tmp.head_.value, NodePtr.heap m.length⟩, (tmp.size_ + 1) % SIZE_MOD⟩,
        ⟨NodePtr.heap m.length⟩)) := by
  simp only [linkStep, getNext, h, hc, newNode, setNext, BasicIterator.preIncrement]

theorem rangeLoop_tail_fail (copy : α → Option α) : ∀ (S : List α) (m : Heap α)
    (tmp : SingleLinkedList α) (a : Nat) (xa : α), m[a]? = some (some ⟨xa, NodePtr.null⟩) →
    (∃ x ∈ S, copy x = none) →
    ∃ m1 tmp1 q cs, rangeLoop copy S m tmp ⟨NodePtr.heap a⟩ = Except.ok (m1, tmp1, false) ∧
      tmp1.head_ = tmp.head_ ∧ m1.length = m.length + cs.length ∧
      (∀ b, b < m.length → b ≠ a → m1[b]? = m[b]?) ∧
      m1[a]? = some (some ⟨xa, q⟩) ∧
      Chain m1 q cs ∧ (∀ c ∈ cs, m.length ≤ c.1) ∧
      (∀ b, m.length ≤ b → b < m1.length → ∃ c ∈ cs, c.1 = b) ∧ cs.length < S.length
  | [], m, tmp, a, xa, h, hex => by
    obtain ⟨x, hx, _⟩ := hex
    simp at hx
  | x :: rest, m, tmp, a, xa, h, hex => by
    have hlt : a < m.length := (List.getElem?_eq_some.1 h).1
    cases hc : copy x with
    | none =>
      refine ⟨m, tmp, NodePtr.null, [], ?_, rfl, rfl, fun _ _ _ => rfl, h, rfl, ?_, ?_, ?_⟩
      · simp only [rangeLoop, linkStep, getNext, h, hc]
      · intro c hcm
        simp at hcm
      · intro b h1 h2
        omega
      · simp
    | some v =>
      have hex2 : ∃ y ∈ rest, copy y = none := by
        obtain ⟨y, hy, hyn⟩ := hex
        rcases List.mem_cons.1 hy with rfl | hy
        · rw [hc] at hyn
          cases hyn
        · exact ⟨y, hy, hyn⟩
      have hnew : ((m ++ [some (⟨v, NodePtr.null⟩ : Node α)]).set a
          (some ⟨xa, NodePtr.heap m.length⟩))[m.length]? = some (some ⟨v, NodePtr.null⟩) := by
        rw [List.getElem?_set_ne (by omega)]
        simp
      obtain ⟨m1, tmp1, q, cs, hrun, hhead, hlen, hframe, hcell, hch, hge, hcov, hshort⟩ :=
        rangeLoop_tail_fail copy rest _ ⟨tmp.head_, (tmp.size_ + 1) % SIZE_MOD⟩ m.length v
          hnew hex2
      have hlen2 : ((m ++ [some (⟨v, NodePtr.null⟩ : Node α)]).set a
          (some ⟨xa, NodePtr.heap m.length⟩)).length = m.length + 1 := by simp
      rw [hlen2] at hlen hframe hge hcov
      refine ⟨m1, tmp1, NodePtr.heap m.length, (m.length, v) :: cs, ?_, hhead, ?_, ?_, ?_,
        ⟨rfl, q, hcell, hch⟩, ?_, ?_, ?_⟩
      · rw [rangeLoop, linkStep_tail_copy tmp h hc]
        exact hrun
      · rw [hlen, List.length_cons]
        omega
      · intro b hb hba
        rw [hframe b (by omega) (by omega), List.getElem?_set_ne (Ne.symm hba),
          List.getElem?_append_left hb]
      · rw [hframe a (by omega) (by omega), List.getElem?_set_self]
        simp
        omega
      · intro c hcm
        rcases List.mem_cons.1 hcm with rfl | hcm
        · exact Nat.le_refl _
        · have := hge c hcm
          omega
      · intro b h1 h2
        by_cases hb : b = m.length
        · exact ⟨(m.length, v), List.mem_cons_self _ _, hb.symm⟩
        · obtain ⟨c, hcm, hcb⟩ := hcov b (by omega) h2
          exact ⟨c, List.mem_cons_of_mem _ hcm, hcb⟩
      · simp only [List.length_cons]
        omega

theorem rangeLoop_head_fail (copy : α → Option α) (S : List α) (m : Heap α)
    (tmp : SingleLinkedList α) (h : tmp.head_.next_node = NodePtr.null)
    (hex : ∃ x ∈ S, copy x = none) :
    ∃ m1 tmp1 cs, rangeLoop copy S m tmp ⟨NodePtr.head⟩ = Except.ok (m1, tmp1, false) ∧
      m1.length = m.length + cs.length ∧
      (∀ b, b < m.length → m1[b]? = m[b]?) ∧
      Chain m1 tmp1.head_.next_node cs ∧ (∀ c ∈ cs, m.length ≤ c.1) ∧
      (∀ b, m.length ≤ b → b < m1.length → ∃ c ∈ cs, c.1 = b) ∧ cs.length < S.length := by
  cases S with
  | nil =>
    obtain ⟨x, hx, _⟩ := hex
    simp at hx
  | cons x rest =>
    cases hc : copy x with
    | none =>
      refine ⟨m, tmp, [], ?_, rfl, fun _ _ => rfl, h, ?_, ?_, ?_⟩
      · simp only [rangeLoop, linkStep, getNext, h, hc]
      · intro c hcm
        simp at hcm
      · intro b h1 h2
        omega
      · simp
    | some v =>
      have hex2 : ∃ y ∈ rest, copy y = none := by
        obtain ⟨y, hy, hyn⟩ := hex
        rcases List.mem_cons.1 hy with rfl | hy
        · rw [hc] at hyn
          cases hyn
        · exact ⟨y, hy, hyn⟩
      have hnew : (m ++ [some (⟨v, NodePtr.null⟩ : Node α)])[m.length]? =
          some (some ⟨v, NodePtr.null⟩) := by simp
      obtain ⟨m1, tmp1, q, cs, hrun, hhead, hlen, hframe, hcell, hch, hge, hcov, hshort⟩ :=
        rangeLoop_tail_fail copy rest _ ⟨⟨tmp.head_.value, NodePtr.heap m.length⟩,
          (tmp.size_ + 1) % SIZE_MOD⟩ m.length v hnew hex2
      have hlen2 : (m ++ [some (⟨v, NodePtr.null⟩ : Node α)]).length = m.length + 1 := by simp
      rw [hlen2] at hlen hframe hge hcov
      refine ⟨m1, tmp1, (m.length, v) :: cs, ?_, ?_, ?_, ?_, ?_, ?_, ?_⟩
      · rw [rangeLoop, linkStep_head_copy tmp h hc]
        exact hrun
      · rw [hlen, List.length_cons]
        omega
      · intro b hb
        rw [hframe b (by omega) (by omega), List.getElem?_append_left hb]
      · rw [hhead]
        exact ⟨rfl, q, hcell, hch⟩
      · intro c hcm
        rcases List.mem_cons.1 hcm with rfl | hcm
        · exact Nat.le_refl _
        · have := hge c hcm
          omega
      · intro b h1 h2
        by_cases hb : b = m.length
        · exact ⟨(m.length, v), List.mem_cons_self _ _, hb.symm⟩
        · obtain ⟨c, hcm, hcb⟩ := hcov b (by omega) h2
          exact ⟨c, List.mem_cons_of_mem _ hcm, hcb⟩
      · simp only [List.length_cons]
        omega

theorem rangeCtor_fail [Inhabited α] (copy : α → Option α) (fuel : Nat) (m : Heap α)
    (S : List α) (hex : ∃ x ∈ S, copy x = none) (hf : S.length ≤ fuel) :
    ∃ m1, RangeCtor fuel copy m S = Except.ok (m1, none) ∧
      (∀ b, b < m.length → m1[b]? = m[b]?) ∧
      (∀ b, m.length ≤ b → b < m1.length → m1[b]? = some none) := by
  obtain ⟨m1, tmp1, cs, hrun, hlen, hframe, hch, hge, hcov, hshort⟩ :=
    rangeLoop_head_fail copy S m (empty : SingleLinkedList α) rfl hex
  obtain ⟨f, rfl⟩ : ∃ f, fuel = f + 1 := ⟨fuel - 1, by omega⟩
  obtain ⟨m3, hclear, hlen3, hframe3, hfreed⟩ :=
    Clear_chain_freed cs m1 tmp1 (f + 1) hch (by omega)
  refine ⟨m3, ?_, ?_, ?_⟩
  · simp only [RangeCtor, empty, and_self, if_true] at hrun ⊢
    rw [hrun]
    simp only [finishCtor, Bool.false_eq_true, if_false]
    rw [Clear_null f m1 _ rfl]
    simp only [hclear]
  · intro b hb
    rw [hframe3 b, hframe b hb]
    intro c hcm e
    have := hge c hcm
    omega
  · intro b h1 h2
    obtain ⟨c, hcm, rfl⟩ := hcov b h1 (by omega)
    exact hfreed c hcm

/-- C19. Let the element copy be fallible (`copy x = none`: the copy constructor of the
element throws) and fail at some index `i` of the source sequence `S`. Then, with a loop
budget above `|S|`, the range constructor on `S` returns without a list (`none`: the
exception leaves the constructor), every cell the free store had before is unchanged and
every node allocated meanwhile has been deleted; and for lists `a` (elements `xa`) and
`b` (elements `S`) the copy assignment `a = b` reports the failure (`false`) with the
list object `a` as it was, so that the traversal of `a` still yields `xa` and `GetSize()`
is unchanged, and the traversal of `b` still yields `S`. -/
theorem C19_failed_copy_is_all_or_nothing [Inhabited α] (copy : α → Option α) (m : Heap α)
    (S : List α) (i : Nat) (fuel : Nat) (a b : SingleLinkedList α) (xa : List α)
    (hi : i < S.length) (hfail : copy (S.get ⟨i, hi⟩) = none) (hfuel : S.length < fuel)
    (ha : Elements m a xa) (hb : Elements m b S) :
    (∃ m1, RangeCtor fuel copy m S = Except.ok (m1, none) ∧
      (∀ c, c < m.length → m1[c]? = m[c]?) ∧
      (∀ c, m.length ≤ c → c < m1.length → m1[c]? = some none)) ∧
    (∃ m1 a1, operatorAssign fuel copy m a (some b) = Except.ok (m1, a1, false) ∧
      a1 = a ∧ Elements m1 a1 xa ∧ GetSize a1 = GetSize a ∧ Elements m1 b S) := by
  have hex : ∃ x ∈ S, copy x = none := ⟨S.get ⟨i, hi⟩, List.get_mem _ _ _, hfail⟩
  obtain ⟨m1, hrun, hframe, hfreed⟩ := rangeCtor_fail copy fuel m S hex (by omega)
  refine ⟨⟨m1, hrun, hframe, hfreed⟩, m1, a, ?_, rfl, elements_frame ha hframe, rfl,
    elements_frame hb hframe⟩
  obtain ⟨cb, hcb, hmb⟩ := chain_of_elements hb
  have hlb : cb.length = S.length := by rw [← hmb, List.length_map]
  simp only [operatorAssign, CopyCtor_eq_RangeCtor copy hcb (show cb.length < fuel by omega),
    hmb, hrun]

/-- C19 on the free store `orderHeap`, with `a = [1, 2]` (nodes 7, 8), `b = [1, 2, 3]`
(nodes 0, 1, 2) and an element copy that fails on the value 2 (index 1 of `b`). -/
theorem C19_witness :
    (∃ (m1 : Heap Nat),
      RangeCtor 4 (fun x => if x = 2 then none else some x) orderHeap [1, 2, 3] =
        Except.ok (m1, none) ∧
      (∀ c, c < orderHeap.length → m1[c]? = orderHeap[c]?) ∧
      (∀ c, orderHeap.length ≤ c → c < m1.length → m1[c]? = some none)) ∧
    (∃ (m1 : Heap Nat) (a1 : SingleLinkedList Nat),
      operatorAssign 4 (fun x => if x = 2 then none else some x) orderHeap (listAt 7 2)
        (some (listAt 0 3)) = Except.ok (m1, a1, false) ∧
      a1 = listAt 7 2 ∧ Elements m1 a1 [1, 2] ∧ GetSize a1 = GetSize (listAt 7 2) ∧
      Elements m1 (listAt 0 3) [1, 2, 3]) :=
  C19_failed_copy_is_all_or_nothing (fun x => if x = 2 then none else some x) orderHeap
    [1, 2, 3] 1 4 (listAt 7 2) (listAt 0 3) [1, 2] (by decide) (by decide) (by decide)
    ⟨3, by decide⟩ ⟨4, by decide⟩

end SingleLinkedList
